import Mathlib

/-!
Verification of the RAG pipeline core in
`services/python-ai/app/services/rag_service.py`.

Strings are modelled as `List Char`.  Character classes (`\w`, `\s`,
upper/lower case) are modelled on the repertoire the code and spec actually
use: ASCII plus the Cyrillic block named in the source regexes; floating
point relevance scores are modelled as rationals.  External collaborators
(the NLTK sentence tokenizer, the cross-encoder scoring call, Python's
`str()` on a dict) are parameters of the corresponding functions.
-/

/-- Python regex `\s` / `str.strip` whitespace, restricted to the characters
the sanitizer can ever see (the sanitizer is the only entry point, and it
removes `\x0b`, `\x0c` and all other banned controls first). -/
def pySpace (c : Char) : Bool :=
  c.toNat = 0x20 || c.toNat = 0x09 || c.toNat = 0x0A || c.toNat = 0x0D ||
  c.toNat = 0x0B || c.toNat = 0x0C || c.toNat = 0x85 || c.toNat = 0xA0 ||
  c.toNat = 0x1680 || (0x2000 ≤ c.toNat && c.toNat ≤ 0x200A) ||
  c.toNat = 0x2028 || c.toNat = 0x2029 || c.toNat = 0x202F ||
  c.toNat = 0x205F || c.toNat = 0x3000

/-- Cyrillic upper-case letter (`А`–`Я`, `Ё`). -/
def cyrUpper (c : Char) : Bool :=
  (0x410 ≤ c.toNat && c.toNat ≤ 0x42F) || c.toNat = 0x401

/-- Cyrillic lower-case letter (`а`–`я`, `ё`). -/
def cyrLower (c : Char) : Bool :=
  (0x430 ≤ c.toNat && c.toNat ≤ 0x44F) || c.toNat = 0x451

/-- Python `c.isupper()` on the modelled repertoire (`A`–`Z` and
Cyrillic). -/
def pyUpperCh (c : Char) : Bool :=
  (0x41 ≤ c.toNat && c.toNat ≤ 0x5A) || cyrUpper c

/-- Python `c.islower()` on the modelled repertoire (`a`–`z` and
Cyrillic). -/
def pyLowerCh (c : Char) : Bool :=
  (0x61 ≤ c.toNat && c.toNat ≤ 0x7A) || cyrLower c

/-- A cased character (has an upper/lower distinction). -/
def pyCased (c : Char) : Bool := pyUpperCh c || pyLowerCh c

/-- Python `str.lower` on one character of the modelled repertoire. -/
def pyLowerMap (c : Char) : Char :=
  if 'A' ≤ c && c ≤ 'Z' then Char.ofNat (c.toNat + 32)
  else if 0x410 ≤ c.toNat && c.toNat ≤ 0x42F then Char.ofNat (c.toNat + 0x20)
  else if c.toNat = 0x401 then Char.ofNat 0x451
  else c

/-- Python `str.lower` on a string. -/
def pyLower (l : List Char) : List Char := l.map pyLowerMap

/-- Python regex `\w` (Unicode word character) on the modelled repertoire:
letters, digits and underscore. -/
def pyWordCh (c : Char) : Bool :=
  (0x30 ≤ c.toNat && c.toNat ≤ 0x39) || pyUpperCh c || pyLowerCh c ||
  c.toNat = 0x5F

/-- Python `str.strip()`: drop whitespace from both ends. -/
def pyStrip (l : List Char) : List Char :=
  ((l.dropWhile pySpace).reverse.dropWhile pySpace).reverse

/-- `rag_service.py:29` — the control characters removed by the first
regex of `clean_pdf_artifacts`: `[\x00-\x08\x0B\x0C\x0E-\x1F]`. -/
def bannedCtl (c : Char) : Bool :=
  c.toNat ≤ 0x08 || c.toNat = 0x0B || c.toNat = 0x0C ||
  (0x0E ≤ c.toNat && c.toNat ≤ 0x1F)

/-- `rag_service.py:30` — a character kept by the second regex of
`clean_pdf_artifacts`: the class `[\w\s\-\.,!?:;()&'"\n]`. -/
def allowedCh (c : Char) : Bool :=
  pyWordCh c || pySpace c || c.toNat = 0x2D || c.toNat = 0x2E ||
  c.toNat = 0x2C || c.toNat = 0x21 || c.toNat = 0x3F || c.toNat = 0x3A ||
  c.toNat = 0x3B || c.toNat = 0x28 || c.toNat = 0x29 || c.toNat = 0x26 ||
  c.toNat = 0x27 || c.toNat = 0x22 || c.toNat = 0x0A

/-- `re.sub(r' +', ' ', text)`: collapse every run of spaces to one space
(keeping the last space of each run, which yields the same string). -/
def collapseSpaces : List Char → List Char
  | [] => []
  | [c] => [c]
  | c₁ :: c₂ :: rest =>
    if c₁ = ' ' && c₂ = ' ' then collapseSpaces (c₂ :: rest)
    else c₁ :: collapseSpaces (c₂ :: rest)

/-- Helper of `collapseNewlines`: walk the text tracking the length of
the pending newline run; each maximal run of `k` newlines is emitted as
`min k 2` newlines. -/
def cnAux : Nat → List Char → List Char
  | run, [] => List.replicate (min run 2) '\n'
  | run, c :: rest =>
    if c = '\n' then cnAux (run + 1) rest
    else List.replicate (min run 2) '\n' ++ c :: cnAux 0 rest

/-- `re.sub(r'\n{3,}', '\n\n', text)`: collapse every run of three or more
newlines to exactly two (runs of one or two newlines are unchanged). -/
def collapseNewlines (l : List Char) : List Char := cnAux 0 l

/-- `rag_service.py:25-33` — `clean_pdf_artifacts`: remove banned control
characters, remove characters outside the allowed class, collapse space
runs, collapse blank-line runs, and strip. -/
def cleanPdfArtifacts (text : List Char) : List Char :=
  pyStrip (collapseNewlines (collapseSpaces
    ((text.filter (fun c => !bannedCtl c)).filter allowedCh)))

/-- Python `text.split('\n')`: split at every newline, keeping empty
segments; never returns an empty list. -/
def splitOnNl : List Char → List (List Char)
  | [] => [[]]
  | c :: rest =>
    if c = '\n' then [] :: splitOnNl rest
    else
      match splitOnNl rest with
      | [] => [[c]]
      | l :: ls => (c :: l) :: ls

/-- Helper of `runsBy`: accumulate the current run (reversed). -/
def runsByAux (p : Char → Bool) (cur : List Char) : List Char → List (List Char)
  | [] => if cur = [] then [] else [cur.reverse]
  | c :: rest =>
    if p c then runsByAux p (c :: cur) rest
    else if cur = [] then runsByAux p [] rest
    else cur.reverse :: runsByAux p [] rest

/-- Maximal runs of characters satisfying `p` (used for Python
`str.split()` word counting and for `re.findall` token extraction). -/
def runsBy (p : Char → Bool) (l : List Char) : List (List Char) :=
  runsByAux p [] l

/-- Python `len(line.split())`: number of whitespace-separated words. -/
def wordCount (l : List Char) : Nat := (runsBy (fun c => !pySpace c) l).length

/-- Python `line.isupper()`: at least one cased character and every cased
character upper-case. -/
def pyIsupper (l : List Char) : Bool :=
  l.any pyCased && l.all (fun c => !pyCased c || pyUpperCh c)

/-- A roman-numeral letter as in the regex class `[ivxlcdm]` with
`re.IGNORECASE`. -/
def romanCh (c : Char) : Bool :=
  c = 'i' || c = 'v' || c = 'x' || c = 'l' || c = 'c' || c = 'd' || c = 'm' ||
  c = 'I' || c = 'V' || c = 'X' || c = 'L' || c = 'C' || c = 'D' || c = 'M'

/-- `re.match(r"^(\d+\.|[ivxlcdm]+\.|[•\-*])\s+", line, re.IGNORECASE)`:
a digit run or roman-numeral run followed by a period, or a bullet
character, in every case followed by at least one whitespace character. -/
def bulletNumMatch (l : List Char) : Bool :=
  (match l.head? with
   | some c => (c = '•' || c = '-' || c = '*') &&
       (match (l.drop 1).head? with | some w => pySpace w | none => false)
   | none => false) ||
  (let ds := l.takeWhile Char.isDigit
   ds ≠ [] &&
     (match (l.drop ds.length).head? with | some c => c = '.' | none => false) &&
     (match (l.drop (ds.length + 1)).head? with | some w => pySpace w | none => false)) ||
  (let rs := l.takeWhile romanCh
   rs ≠ [] &&
     (match (l.drop rs.length).head? with | some c => c = '.' | none => false) &&
     (match (l.drop (rs.length + 1)).head? with | some w => pySpace w | none => false))

/-- `rag_service.py:125-139` — `is_heading(line)` (the argument is already
stripped, so the regex's `line.strip()` is `line` itself). -/
def isHeading (line : List Char) : Bool :=
  if line.length > 180 then false
  else if line.head? = some '#' then true
  else if pyIsupper line && wordCount line ≤ 8 then true
  else if bulletNumMatch line then line.length ≤ 160
  else if (line ≠ [] : Bool) &&
      (match line.head? with | some c => pyUpperCh c | none => false) &&
      wordCount line ≤ 6 then true
  else false

/-- State of the chunking loop of `split_text_semantic`:
accumulated chunks, current chunk fragments, tracked current length, and
the most recent heading line. -/
structure ChunkState where
  chunks : List (List Char)
  current : List (List Char)
  currentLen : Nat
  lastHeader : List Char
deriving DecidableEq

/-- Python `' '.join(current_chunk)`. -/
def joinSp : List (List Char) → List Char
  | [] => []
  | [x] => x
  | x :: xs => x ++ ' ' :: joinSp xs

/-- `rag_service.py:150-153` (also 180-183 and 200-203) — closing the
current chunk: join the fragments with single spaces and, when a header is
tracked that does not already occur in the joined text, prepend it on its
own line. -/
def closeChunk (lastHeader : List Char) (current : List (List Char)) : List Char :=
  let joined := joinSp current
  if lastHeader ≠ [] ∧ ¬ (lastHeader <:+: joined) then
    lastHeader ++ '\n' :: joined
  else joined

/-- Python `chunk_text[-overlap:]` for `overlap > 0`: the last `overlap`
characters. -/
def tailTake (n : Nat) (l : List Char) : List Char := l.drop (l.length - n)

/-- `rag_service.py:168-197` — processing of one sentence inside
`split_text_semantic`: strip it, drop it when shorter than 3 characters,
attach the header context, close the current chunk when the tracked length
would exceed `chunk_size` (seeding the overlap tail inside a section), and
append. -/
def stepSent (chunkSize overlap : Nat) (heading : Bool) (s : ChunkState)
    (sent0 : List Char) : ChunkState :=
  let sent := pyStrip sent0
  if sent = [] ∨ sent.length < 3 then s
  else
    let swc := if ¬heading ∧ s.lastHeader ≠ [] then
        s.lastHeader ++ ':' :: ' ' :: sent
      else sent
    let newLen := s.currentLen + swc.length + 1
    if newLen > chunkSize ∧ s.current ≠ [] then
      let ct := closeChunk s.lastHeader s.current
      let ob : List (List Char) :=
        if overlap > 0 ∧ ¬heading then [tailTake overlap ct] else []
      { s with chunks := s.chunks ++ [ct], current := ob ++ [swc],
               currentLen := newLen }
    else
      { s with current := s.current ++ [swc], currentLen := newLen }

/-- `rag_service.py:141-166` — processing of one raw line: strip it, skip
blank lines, close the current chunk at a new heading (without carrying
overlap), record the heading, and feed the line's sentences (the heading
itself, or the tokenizer's output) through `stepSent`. -/
def stepLine (tok : List Char → List (List Char)) (chunkSize overlap : Nat)
    (s : ChunkState) (rawLine : List Char) : ChunkState :=
  let line := pyStrip rawLine
  if line = [] then s
  else
    let heading := isHeading line
    let s1 := if heading ∧ s.current ≠ [] then
        { s with chunks := s.chunks ++ [closeChunk s.lastHeader s.current],
                 current := [], currentLen := 0 }
      else s
    let s2 := if heading then { s1 with lastHeader := line } else s1
    let sentences := if heading then [line] else tok line
    sentences.foldl (stepSent chunkSize overlap heading) s2

/-- `rag_service.py:107-206` — `split_text_semantic`, parametrized by the
sentence tokenizer `tok` (NLTK `sent_tokenize`, or the single-line
fallback used when it raises). -/
def splitTextSemantic (tok : List Char → List (List Char))
    (chunkSize overlap : Nat) (text0 : List Char) : List (List Char) :=
  let text := cleanPdfArtifacts text0
  if text = [] then []
  else if text.length ≤ chunkSize then [text]
  else
    let s := (splitOnNl text).foldl (stepLine tok chunkSize overlap)
      ⟨[], [], 0, []⟩
    let chunks := if s.current ≠ [] then
        s.chunks ++ [closeChunk s.lastHeader s.current]
      else s.chunks
    if chunks ≠ [] then chunks else [text]

/-- A search-result document as the dict the service passes around:
`id`, `text`, vector `score`, `rerank_score` (absent until the reranker
assigns it), `file_name`, `chunk_index`.  Scores are modelled as
rationals. -/
structure Doc where
  id : Option (List Char)
  text : List Char
  score : Option ℚ
  rerank_score : Option ℚ
  file_name : Option (List Char)
  chunk_index : Option Nat
deriving DecidableEq

/-- Python `str(doc.get('id', ''))`: the stringified id, empty when the
key is missing. -/
def strId (d : Doc) : List Char := d.id.getD []

/-- `rag_service.py:305-312` — the deduplication loop of
`advanced_search`: an insertion-ordered map from non-empty stringified id
to the first document seen with that id, read back in insertion order. -/
def dedupeByIdAux (seen : List (List Char)) : List Doc → List Doc
  | [] => []
  | d :: ds =>
    if strId d ≠ [] ∧ strId d ∉ seen then
      d :: dedupeByIdAux (strId d :: seen) ds
    else dedupeByIdAux seen ds

/-- Deduplication by id as performed by `advanced_search`. -/
def dedupeById (docs : List Doc) : List Doc := dedupeByIdAux [] docs

/-- Python `doc.get('rerank_score', 0)` (and the `or 0` variant): the
rerank score with default `0`. -/
def rerankKey (d : Doc) : ℚ := d.rerank_score.getD 0

/-- `rag_service.py:233-240` — the `(query, text)` pairs handed to the
cross-encoder: the document text truncated to 2000 characters, or the
stringified document (`strRepr`, a collaborator) when that text is
blank. -/
def mkPairs (strRepr : Doc → List Char) (query : List Char)
    (docs : List Doc) : List (List Char × List Char) :=
  docs.map fun d =>
    if pyStrip (d.text.take 2000) ≠ [] then (query, d.text.take 2000)
    else (query, strRepr d)

/-- `rag_service.py:249-253` — assignment of the returned scores:
the i-th score goes to the i-th document's `rerank_score`, and `0.0` to
every index the collaborator did not cover. -/
def assignScores (scores : List ℚ) (docs : List Doc) : List Doc :=
  docs.enum.map fun p => { p.2 with rerank_score := some (scores.getD p.1 0) }

/-- `rag_service.py:256` — `sorted(documents, key=lambda d:
d.get('rerank_score', 0), reverse=True)`: a stable descending sort by
rerank score (Python's `sorted` is stable; `List.mergeSort` is its
standard model). -/
def sortByScoreDesc (docs : List Doc) : List Doc :=
  docs.mergeSort fun a b => rerankKey b ≤ rerankKey a

/-- `rag_service.py:208-277` — `rerank_documents`, parametrized by the
collaborators: `strRepr` (Python `str` on a document dict), `scoresOf`
(the cross-encoder batch call; `none` models the call raising), and
`available` (whether `load_reranker_model` returned a model).  Diagnostic
printing is dropped. -/
def rerankDocuments (strRepr : Doc → List Char)
    (scoresOf : List (List Char × List Char) → Option (List ℚ))
    (available : Bool) (query : List Char) (docs : List Doc)
    (topK : Nat) : List Doc :=
  if docs = [] then []
  else if ¬available then docs.take topK
  else
    let pairs := mkPairs strRepr query docs
    if pairs = [] then docs.take topK
    else
      match scoresOf pairs with
      | none => docs.take topK
      | some scores => (sortByScoreDesc (assignScores scores docs)).take topK

/-- `rag_service.py:279-331` — `advanced_search`, parametrized by the
collaborators of `rerank_documents` and by the `settings.use_reranker`
flag.  `botId` is only used for logging in the source and is kept for
signature parity. -/
def advancedSearch (strRepr : Doc → List Char)
    (scoresOf : List (List Char × List Char) → Option (List ℚ))
    (available useReranker : Bool) (_botId query : List Char)
    (vectorResults : List Doc) (topK : Nat) : List Doc :=
  let candidatesList := dedupeById vectorResults
  if candidatesList = [] then []
  else if useReranker then
    let rerankK := min (topK * 3) candidatesList.length
    (rerankDocuments strRepr scoresOf available query candidatesList rerankK).take topK
  else candidatesList.take topK

/-- A query-keyword character as in
`re.findall(r"[A-Za-zА-Яа-яЁё']+", text)`. -/
def kwCh (c : Char) : Bool :=
  ('A' ≤ c && c ≤ 'Z') || ('a' ≤ c && c ≤ 'z') || cyrUpper c || cyrLower c ||
  c = '\''

/-- `rag_service.py:353-355` — `extract_keywords`: lower-cased maximal
keyword-character runs of length at least 4. -/
def extractKeywords (text : List Char) : List (List Char) :=
  ((runsBy kwCh text).filter (fun w => 4 ≤ w.length)).map pyLower

/-- `rag_service.py:359-363` — the main-header candidate: the first line
of the top document's text when it is non-empty and at most 60
characters long. -/
def mainHeader (docs : List Doc) : Option (List Char) :=
  match docs with
  | [] => none
  | d :: _ =>
    let firstLine := pyStrip (d.text.takeWhile (· ≠ '\n'))
    if firstLine ≠ [] ∧ firstLine.length ≤ 60 then some firstLine else none

/-- `rag_service.py:366-370` — the maximum rerank score over all
documents, starting from `0.0`. -/
def maxRerank (docs : List Doc) : ℚ :=
  docs.foldl (fun m d => if rerankKey d > m then rerankKey d else m) 0

/-- `rag_service.py:372-392` — the keep decision for one document of the
filter pass: keyword hit, main-header hit, or unconditionally when
nothing has been kept yet; then the 0.55-of-max rerank threshold, from
which the very first kept document is exempt.  The float constant `0.55`
is modelled as the rational `11/20`. -/
def keepDoc (kws : List (List Char)) (mh : Option (List Char)) (maxR : ℚ)
    (filtered : List Doc) (d : Doc) : Bool :=
  let lowerText := pyLower d.text
  let score := rerankKey d
  let keep1 : Bool := kws ≠ [] ∧ ∃ k ∈ kws, k <:+: lowerText
  let keep2 : Bool := keep1 ||
    (match mh with
     | some h => decide (pyLower h <:+: lowerText)
     | none => false)
  let keep3 : Bool := keep2 || filtered.isEmpty
  if keep3 ∧ maxR > 0 ∧ ¬ filtered.isEmpty ∧ score < maxR * (11 / 20) then
    false
  else keep3

/-- The filter pass of `build_context` as a left fold appending kept
documents. -/
def filterPass (kws : List (List Char)) (mh : Option (List Char))
    (maxR : ℚ) (docs : List Doc) : List Doc :=
  docs.foldl (fun filtered d =>
    if keepDoc kws mh maxR filtered d then filtered ++ [d] else filtered) []

/-- `rag_service.py:396-401` — the recall safety net loop: append
not-yet-kept documents in original order until `min_docs` is reached. -/
def recallNetAux (minDocs : Nat) (filtered : List Doc) : List Doc → List Doc
  | [] => filtered
  | d :: ds =>
    if d ∈ filtered then recallNetAux minDocs filtered ds
    else
      let f := filtered ++ [d]
      if minDocs ≤ f.length then f else recallNetAux minDocs f ds

/-- `rag_service.py:395-401` — the recall safety net, entered only when
fewer than `min_docs` documents survived the filter. -/
def recallNet (minDocs : Nat) (docs filtered : List Doc) : List Doc :=
  if filtered.length < minDocs then recallNetAux minDocs filtered docs
  else filtered

/-- `rag_service.py:408-417` — exact-text deduplication keyed on the
stripped text, first occurrence wins. -/
def dedupeByTextAux (seen : List (List Char)) : List Doc → List Doc
  | [] => []
  | d :: ds =>
    let key := pyStrip d.text
    if key ∈ seen then dedupeByTextAux seen ds
    else d :: dedupeByTextAux (key :: seen) ds

/-- Exact-text deduplication of the filtered list. -/
def dedupeByText (docs : List Doc) : List Doc := dedupeByTextAux [] docs

/-- The three-character truncation marker `"..."`. -/
def dots : List Char := ['.', '.', '.']

/-- `rag_service.py:421-444` — the packing loop of `build_context`:
skip blank texts, skip short no-sentence fragments once something was
accepted, stop at `max_docs`, and on budget overflow truncate (with the
marker) only when more than 500 characters remain. -/
def packLoop (maxChars maxDocs : Nat) (parts : List (List Char))
    (total : Nat) : List Doc → List (List Char)
  | [] => parts
  | d :: ds =>
    let text := pyStrip d.text
    if text = [] then packLoop maxChars maxDocs parts total ds
    else if text.length < 120 ∧ '.' ∉ text ∧ '\n' ∉ text ∧ parts ≠ [] then
      packLoop maxChars maxDocs parts total ds
    else if maxDocs ≤ parts.length then parts
    else if total + text.length > maxChars then
      if maxChars - total > 500 then
        parts ++ [text.take (maxChars - total) ++ dots]
      else parts
    else packLoop maxChars maxDocs (parts ++ [text]) (total + text.length) ds

/-- Companion of `packLoop` answering whether the packing loop took the
truncation branch (same recursion, Boolean result). -/
def packTruncated (maxChars maxDocs : Nat) (parts : List (List Char))
    (total : Nat) : List Doc → Bool
  | [] => false
  | d :: ds =>
    let text := pyStrip d.text
    if text = [] then packTruncated maxChars maxDocs parts total ds
    else if text.length < 120 ∧ '.' ∉ text ∧ '\n' ∉ text ∧ parts ≠ [] then
      packTruncated maxChars maxDocs parts total ds
    else if maxDocs ≤ parts.length then false
    else if total + text.length > maxChars then
      decide (maxChars - total > 500)
    else packTruncated maxChars maxDocs (parts ++ [text]) (total + text.length) ds

/-- The filtered, recall-extended, fallback-protected, text-deduplicated
document list that the packing loop of `build_context` receives
(`rag_service.py:353-417`). -/
def contextDocs (query : List Char) (docs : List Doc) (minDocs : Nat) :
    List Doc :=
  let kws := extractKeywords query
  let mh := mainHeader docs
  let maxR := maxRerank docs
  let filtered := recallNet minDocs docs (filterPass kws mh maxR docs)
  let filtered2 := if filtered = [] then docs.take (min minDocs docs.length)
    else filtered
  dedupeByText filtered2

/-- Python `'\n\n'.join(context_parts)`. -/
def joinBlank : List (List Char) → List Char
  | [] => []
  | [x] => x
  | x :: xs => x ++ '\n' :: '\n' :: joinBlank xs

/-- `rag_service.py:333-449` — `build_context`: filter, recall net, total
fallback, text dedup, packing, and the final `'\n\n'.join`. -/
def buildContext (query : List Char) (docs : List Doc)
    (maxChars maxDocs minDocs : Nat) : List Char :=
  if docs = [] then []
  else joinBlank (packLoop maxChars maxDocs [] 0 (contextDocs query docs minDocs))

/-- A (C0/C1 or DEL) control character. -/
def isCtlCh (c : Char) : Bool :=
  c.toNat < 0x20 || c.toNat = 0x7F || (0x80 ≤ c.toNat && c.toNat ≤ 0x9F)

/-- Two adjacent spaces occur somewhere in the list. -/
def hasDD : List Char → Bool
  | c₁ :: c₂ :: rest => (c₁ = ' ' && c₂ = ' ') || hasDD (c₂ :: rest)
  | _ => false

/-- Three adjacent newlines occur somewhere in the list. -/
def hasTN : List Char → Bool
  | c₁ :: c₂ :: c₃ :: rest =>
    (c₁ = '\n' && c₂ = '\n' && c₃ = '\n') || hasTN (c₂ :: c₃ :: rest)
  | _ => false

/-- The maximum stripped-line length of a text. -/
def maxLineLen (text : List Char) : Nat :=
  ((splitOnNl text).map fun l => (pyStrip l).length).foldr max 0

/-- The length bound every chunk of `split_text_semantic` satisfies unless
it is the whole-text fallback: either the tracked size budget, or an
overlap tail plus one header-prefixed sentence (header capped at 180 by
`is_heading`, plus `": "` and the joining space). -/
def chunkBound (chunkSize overlap ML : Nat) : Nat :=
  max chunkSize (overlap + 183 + ML)

/-- Invariant of the chunking loop (see the lemmas below): a tracked
length never below the joined length, a bound on the joined length once
the tracked length is stale, the header always occurring inside the
current fragments, the header length cap, and the bound on every emitted
chunk. -/
def chunkInv (chunkSize overlap ML : Nat) (s : ChunkState) : Prop :=
  (s.current = [] → s.currentLen = 0) ∧
  (s.current ≠ [] → (joinSp s.current).length + 1 ≤ s.currentLen) ∧
  (s.currentLen > chunkSize →
    (joinSp s.current).length ≤ overlap + 183 + ML) ∧
  (s.current ≠ [] →
    s.lastHeader = [] ∨ ∃ e ∈ s.current, s.lastHeader <:+: e) ∧
  (s.lastHeader = [] ∨ s.lastHeader.length ≤ 180) ∧
  (∀ c ∈ s.chunks, c.length ≤ chunkBound chunkSize overlap ML)

/-- A fragment is already placed in the state: it occurs inside an
emitted chunk or inside the chunk under construction. -/
def landed (s : ChunkState) (frag : List Char) : Prop :=
  ∃ c, (c ∈ s.chunks ∨ c ∈ s.current) ∧ frag <:+: c

theorem charEq_iff (a b : Char) : a = b ↔ a.toNat = b.toNat :=
  ⟨fun h => h ▸ rfl, fun h => by
    have h2 := congrArg Char.ofNat h
    rwa [Char.ofNat_toNat, Char.ofNat_toNat] at h2⟩

theorem rev_sfx_pfx {s m : List Char} (h : s <:+ m.reverse) :
    s.reverse <+: m := by
  obtain ⟨t, ht⟩ := h
  refine ⟨t.reverse, ?_⟩
  have h2 := congrArg List.reverse ht
  simpa using h2

theorem pyStrip_within (l : List Char) : pyStrip l <:+: l := by
  have h1 : l.dropWhile pySpace <:+ l := List.dropWhile_suffix _
  have h2 : (l.dropWhile pySpace).reverse.dropWhile pySpace <:+
      (l.dropWhile pySpace).reverse := List.dropWhile_suffix _
  exact ((rev_sfx_pfx h2).isInfix).trans h1.isInfix

theorem pyStrip_length_le (l : List Char) : (pyStrip l).length ≤ l.length :=
  (pyStrip_within l).length_le

theorem dropWhile_self_idem (p : Char → Bool) (l : List Char) :
    (l.dropWhile p).dropWhile p = l.dropWhile p := by
  cases h : l.dropWhile p with
  | nil => simp
  | cons c t =>
    have hpc : p c = false := by
      have h2 := List.head_dropWhile_not p l (by simp [h])
      simpa [h] using h2
    rw [List.dropWhile_cons, hpc]
    simp

theorem pyStrip_idem (l : List Char) : pyStrip (pyStrip l) = pyStrip l := by
  set p := pySpace
  set m := l.dropWhile p with hm
  set r := m.reverse.dropWhile p with hr
  have hstrip : pyStrip l = r.reverse := rfl
  have hpre : r.reverse <+: m := rev_sfx_pfx (hr ▸ List.dropWhile_suffix p)
  have hdropfix : r.reverse.dropWhile p = r.reverse := by
    cases hrr : r.reverse with
    | nil => simp
    | cons c t =>
      have hmne : m ≠ [] := by
        intro h
        rw [h] at hpre
        have := List.IsPrefix.length_le hpre
        simp [hrr] at this
      have hhead : c = m.head hmne := by
        have := List.IsPrefix.head hpre (by simp [hrr])
        simpa [hrr] using this
      have hpc : p (m.head hmne) = false := by
        have hmeq : m = l.dropWhile p := hm
        have : l.dropWhile p ≠ [] := by rw [← hmeq]; exact hmne
        have h3 := List.head_dropWhile_not p l this
        simpa [← hmeq] using h3
      rw [List.dropWhile_cons]
      simp [hhead, hpc]
  show ((r.reverse.dropWhile p).reverse.dropWhile p).reverse = r.reverse
  rw [hdropfix]
  simp only [List.reverse_reverse]
  rw [hr, dropWhile_self_idem]

theorem hasDD_cons (c : Char) (l : List Char) (h : hasDD l = true) :
    hasDD (c :: l) = true := by
  cases l with
  | nil => simp [hasDD] at h
  | cons a t => simp [hasDD, h]

theorem hasDD_append_right (s t : List Char) (h : hasDD t = true) :
    hasDD (s ++ t) = true := by
  induction s with
  | nil => simpa
  | cons c s ih => exact hasDD_cons _ _ ih

theorem not_within_dd {y : List Char} (hno : hasDD y = false) :
    ¬ ([' ', ' '] <:+: y) := by
  intro h
  obtain ⟨s, t, hst⟩ := h
  have : hasDD y = true := by
    rw [← hst, List.append_assoc]
    exact hasDD_append_right _ _ (by simp [hasDD])
  rw [this] at hno
  exact absurd hno (by simp)

theorem hasDD_false_sfx {s l : List Char} (h : s <:+ l)
    (hno : hasDD l = false) : hasDD s = false := by
  cases hs : hasDD s with
  | false => rfl
  | true =>
    obtain ⟨pre, hp⟩ := h
    rw [← hp, hasDD_append_right _ _ hs] at hno
    exact absurd hno (by simp)

theorem hasTN_cons (c : Char) (l : List Char) (h : hasTN l = true) :
    hasTN (c :: l) = true := by
  cases l with
  | nil => simp [hasTN] at h
  | cons a t =>
    cases t with
    | nil => simp [hasTN] at h
    | cons b u => simp [hasTN, h]

theorem hasTN_append_right (s t : List Char) (h : hasTN t = true) :
    hasTN (s ++ t) = true := by
  induction s with
  | nil => simpa
  | cons c s ih => exact hasTN_cons _ _ ih

theorem not_within_tn {y : List Char} (hno : hasTN y = false) :
    ¬ (['\n', '\n', '\n'] <:+: y) := by
  intro h
  obtain ⟨s, t, hst⟩ := h
  have : hasTN y = true := by
    rw [← hst, List.append_assoc]
    exact hasTN_append_right _ _ (by simp [hasTN])
  rw [this] at hno
  exact absurd hno (by simp)

theorem hasTN_false_sfx {s l : List Char} (h : s <:+ l)
    (hno : hasTN l = false) : hasTN s = false := by
  cases hs : hasTN s with
  | false => rfl
  | true =>
    obtain ⟨pre, hp⟩ := h
    rw [← hp, hasTN_append_right _ _ hs] at hno
    exact absurd hno (by simp)

theorem hasDD_append_left (s t : List Char) (h : hasDD s = true) :
    hasDD (s ++ t) = true := by
  induction s with
  | nil => simp [hasDD] at h
  | cons c s ih =>
    cases s with
    | nil => simp [hasDD] at h
    | cons b s2 =>
      simp only [hasDD, Bool.or_eq_true] at h
      rcases h with h | h
      · simp [hasDD, h]
      · have := ih h
        exact hasDD_cons _ _ this

theorem hasTN_append_left (s t : List Char) (h : hasTN s = true) :
    hasTN (s ++ t) = true := by
  induction s with
  | nil => simp [hasTN] at h
  | cons c s ih =>
    cases s with
    | nil => simp [hasTN] at h
    | cons b s2 =>
      cases s2 with
      | nil => simp [hasTN] at h
      | cons e s3 =>
        simp only [hasTN, Bool.or_eq_true] at h
        rcases h with h | h
        · simp [hasTN, h]
        · have := ih h
          exact hasTN_cons _ _ this

theorem hasDD_false_within {s l : List Char} (h : s <:+: l)
    (hno : hasDD l = false) : hasDD s = false := by
  cases hs : hasDD s with
  | false => rfl
  | true =>
    obtain ⟨pre, suf, hp⟩ := h
    rw [← hp, List.append_assoc,
      hasDD_append_right _ _ (hasDD_append_left _ _ hs)] at hno
    exact absurd hno (by simp)

theorem hasTN_false_within {s l : List Char} (h : s <:+: l)
    (hno : hasTN l = false) : hasTN s = false := by
  cases hs : hasTN s with
  | false => rfl
  | true =>
    obtain ⟨pre, suf, hp⟩ := h
    rw [← hp, List.append_assoc,
      hasTN_append_right _ _ (hasTN_append_left _ _ hs)] at hno
    exact absurd hno (by simp)

theorem collapseSpaces_head_ne (c : Char) (r : List Char) (h : ¬ c = ' ') :
    (collapseSpaces (c :: r)).head? = some c := by
  cases r with
  | nil => rfl
  | cons b t => simp [collapseSpaces, h]

theorem hasDD_collapseSpaces (l : List Char) :
    hasDD (collapseSpaces l) = false := by
  induction l with
  | nil => rfl
  | cons c rest ih =>
    cases rest with
    | nil => rfl
    | cons b t =>
      by_cases hc : c = ' ' ∧ b = ' '
      · simpa [collapseSpaces, hc.1, hc.2] using ih
      · have hstep : collapseSpaces (c :: b :: t) =
            c :: collapseSpaces (b :: t) := by
          simp only [collapseSpaces, Bool.and_eq_true, decide_eq_true_eq]
          rw [if_neg hc]
        rw [hstep]
        cases hshape : collapseSpaces (b :: t) with
        | nil => rfl
        | cons h1 t1 =>
          have hh1 : c = ' ' → ¬ h1 = ' ' := by
            intro hcsp hh
            have hbne : ¬ b = ' ' := fun hb => hc ⟨hcsp, hb⟩
            have := collapseSpaces_head_ne b t hbne
            rw [hshape] at this
            simp at this
            exact hbne (by rw [← this, hh])
          rw [hshape] at ih
          simp only [hasDD, Bool.or_eq_false_iff]
          constructor
          · by_cases hcsp : c = ' '
            · simp [hcsp, hh1 hcsp]
            · simp [hcsp]
          · exact ih

theorem replicate_min_head (run : Nat) (t : List Char) :
    (List.replicate (min (run + 1) 2) '\n' ++ t).head? = some '\n' := by
  have h : min (run + 1) 2 = 1 ∨ min (run + 1) 2 = 2 := by omega
  rcases h with h | h <;> simp [h, List.replicate_succ]

theorem cnAux_head_pos (l : List Char) : ∀ run : Nat,
    (cnAux (run + 1) l).head? = some '\n' := by
  induction l with
  | nil =>
    intro run
    show (List.replicate (min (run + 1) 2) '\n').head? = some '\n'
    simpa using replicate_min_head run []
  | cons c rest ih =>
    intro run
    by_cases h : c = '\n'
    · simp only [cnAux, if_pos h]
      exact ih _
    · simp only [cnAux, if_neg h]
      exact replicate_min_head run _

theorem collapseNewlines_head (l : List Char) :
    (collapseNewlines l).head? = l.head? := by
  cases l with
  | nil => rfl
  | cons c rest =>
    by_cases h : c = '\n'
    · show (cnAux 0 (c :: rest)).head? = _
      simp only [cnAux, if_pos h]
      rw [cnAux_head_pos rest 0]
      simp [h]
    · show (cnAux 0 (c :: rest)).head? = _
      simp [cnAux, if_neg h]

theorem hasTN_cons_ne (c : Char) (out : List Char) (hc : ¬ c = '\n') :
    hasTN (c :: out) = hasTN out := by
  cases out with
  | nil => rfl
  | cons b t =>
    cases t with
    | nil => rfl
    | cons e u => simp [hasTN, hc]

theorem hTN_dropOne (a b : Char) (out : List Char) (hb : ¬ b = '\n') :
    hasTN (a :: b :: out) = hasTN (b :: out) := by
  cases out with
  | nil => rfl
  | cons e u => simp [hasTN, hb]

theorem hTN_repl (k : Nat) (hk : k ≤ 2) (c : Char) (hc : ¬ c = '\n')
    (out : List Char) (ho : hasTN out = false) :
    hasTN (List.replicate k '\n' ++ c :: out) = false := by
  have h1 : hasTN (c :: out) = false := by
    rw [hasTN_cons_ne c out hc]
    exact ho
  have h2 : k = 0 ∨ k = 1 ∨ k = 2 := by omega
  rcases h2 with h2 | h2 | h2
  · simpa [h2] using h1
  · rw [h2]
    simp only [List.replicate_succ, List.replicate_zero, List.nil_append,
      List.cons_append]
    rw [hTN_dropOne _ _ _ hc]
    exact h1
  · rw [h2]
    simp only [List.replicate_succ, List.replicate_zero, List.nil_append,
      List.cons_append]
    cases out with
    | nil => simp [hasTN, hc]
    | cons e u =>
      simp only [hasTN, Bool.or_eq_false_iff]
      exact ⟨by simp [hc], by simp [hc], h1⟩

theorem hasTN_replicate_le (k : Nat) (hk : k ≤ 2) :
    hasTN (List.replicate k '\n') = false := by
  have h2 : k = 0 ∨ k = 1 ∨ k = 2 := by omega
  rcases h2 with h2 | h2 | h2 <;> subst h2 <;> rfl

theorem hasTN_cnAux (l : List Char) : ∀ run : Nat,
    hasTN (cnAux run l) = false := by
  induction l with
  | nil =>
    intro run
    exact hasTN_replicate_le _ (by omega)
  | cons c rest ih =>
    intro run
    by_cases h : c = '\n'
    · simp only [cnAux, if_pos h]
      exact ih _
    · simp only [cnAux, if_neg h]
      exact hTN_repl _ (by omega) _ h _ (ih 0)

theorem hasTN_collapseNewlines (l : List Char) :
    hasTN (collapseNewlines l) = false := hasTN_cnAux l 0

theorem hasDD_nl_cons (out : List Char) :
    hasDD ('\n' :: out) = hasDD out := by
  cases out with
  | nil => rfl
  | cons a t => simp [hasDD]

theorem hasDD_replicate_nl (k : Nat) (t : List Char) :
    hasDD (List.replicate k '\n' ++ t) = hasDD t := by
  induction k with
  | zero => simp
  | succ n ih =>
    rw [List.replicate_succ, List.cons_append, hasDD_nl_cons]
    exact ih

theorem hasDD_cnAux (l : List Char) : ∀ run : Nat, hasDD l = false →
    hasDD (cnAux run l) = false := by
  induction l with
  | nil =>
    intro run _
    rw [show cnAux run [] = List.replicate (min run 2) '\n' ++ [] by
      simp [cnAux]]
    rw [hasDD_replicate_nl]
    rfl
  | cons c rest ih =>
    intro run hno
    have hrest : hasDD rest = false :=
      hasDD_false_sfx (List.suffix_cons _ _) hno
    by_cases h : c = '\n'
    · simp only [cnAux, if_pos h]
      exact ih _ hrest
    · simp only [cnAux, if_neg h]
      rw [hasDD_replicate_nl]
      have hrec := ih 0 hrest
      cases hshape : cnAux 0 rest with
      | nil => rfl
      | cons h1 t1 =>
        rw [hshape] at hrec
        simp only [hasDD, Bool.or_eq_false_iff]
        refine ⟨?_, hrec⟩
        by_cases hcsp : c = ' '
        · have hh1 : ¬ h1 = ' ' := by
            intro hh
            have hhead := collapseNewlines_head rest
            rw [show collapseNewlines rest = cnAux 0 rest from rfl,
              hshape] at hhead
            cases rest with
            | nil => simp at hhead
            | cons b u =>
              simp only [List.head?_cons] at hhead
              have hb : b = ' ' := by
                rw [← hh]
                exact (Option.some_inj.mp hhead.symm)
              rw [hcsp, hb] at hno
              simp [hasDD] at hno
          simp [hh1]
        · simp [hcsp]

theorem hasDD_collapseNewlines {l : List Char} (hno : hasDD l = false) :
    hasDD (collapseNewlines l) = false := hasDD_cnAux l 0 hno

theorem collapseSpaces_sub (l : List Char) :
    (collapseSpaces l).Sublist l := by
  induction l with
  | nil => simp [collapseSpaces]
  | cons c rest ih =>
    cases rest with
    | nil => simp [collapseSpaces]
    | cons b t =>
      by_cases hc : c = ' ' ∧ b = ' '
      · have hstep : collapseSpaces (c :: b :: t) = collapseSpaces (b :: t) := by
          simp [collapseSpaces, hc.1, hc.2]
        rw [hstep]
        exact ih.cons _
      · have hstep : collapseSpaces (c :: b :: t) =
            c :: collapseSpaces (b :: t) := by
          simp only [collapseSpaces, Bool.and_eq_true, decide_eq_true_eq]
          rw [if_neg hc]
        rw [hstep]
        exact ih.cons₂ _

theorem mem_cnAux {c : Char} {l : List Char} : ∀ run : Nat,
    c ∈ cnAux run l → c = '\n' ∨ c ∈ l := by
  induction l with
  | nil =>
    intro run h
    rw [show cnAux run [] = List.replicate (min run 2) '\n' by
      simp [cnAux]] at h
    exact Or.inl (List.eq_of_mem_replicate h)
  | cons c2 rest ih =>
    intro run h
    by_cases hc2 : c2 = '\n'
    · simp only [cnAux, if_pos hc2] at h
      rcases ih _ h with h2 | h2
      · exact Or.inl h2
      · exact Or.inr (List.mem_cons_of_mem _ h2)
    · simp only [cnAux, if_neg hc2, List.mem_append, List.mem_cons] at h
      rcases h with h | h | h
      · exact Or.inl (List.eq_of_mem_replicate h)
      · exact Or.inr (by simp [h])
      · rcases ih _ h with h2 | h2
        · exact Or.inl h2
        · exact Or.inr (List.mem_cons_of_mem _ h2)

theorem mem_collapseNewlines {c : Char} {l : List Char}
    (h : c ∈ collapseNewlines l) : c = '\n' ∨ c ∈ l := mem_cnAux 0 h

theorem mem_clean {c : Char} {t : List Char}
    (h : c ∈ cleanPdfArtifacts t) :
    c = '\n' ∨ (bannedCtl c = false ∧ allowedCh c = true) := by
  have h1 : c ∈ collapseNewlines (collapseSpaces
      ((t.filter (fun x => !bannedCtl x)).filter allowedCh)) :=
    (pyStrip_within _).sublist.mem h
  rcases mem_collapseNewlines h1 with h2 | h2
  · exact Or.inl h2
  · have h3 : c ∈ (t.filter (fun x => !bannedCtl x)).filter allowedCh :=
      (collapseSpaces_sub _).mem h2
    rw [List.mem_filter] at h3
    obtain ⟨h4, h5⟩ := h3
    rw [List.mem_filter] at h4
    refine Or.inr ⟨?_, h5⟩
    have := h4.2
    simpa using this

theorem ctl_char_cases {c : Char} (hb : bannedCtl c = false)
    (ha : allowedCh c = true) (hc : isCtlCh c = true) :
    c.toNat = 9 ∨ c.toNat = 10 ∨ c.toNat = 13 ∨ c.toNat = 0x85 := by
  simp only [bannedCtl, Bool.or_eq_false_iff, Bool.and_eq_false_iff,
    decide_eq_false_iff_not, not_le, not_and_or] at hb
  simp only [allowedCh, pyWordCh, pyUpperCh, pyLowerCh, pySpace, cyrUpper,
    cyrLower, Bool.or_eq_true, Bool.and_eq_true, decide_eq_true_eq] at ha
  simp only [isCtlCh, Bool.or_eq_true, Bool.and_eq_true,
    decide_eq_true_eq] at hc
  omega

/-- C8, amended.  The sanitizer removes every control character except
newline, tab, carriage return and U+0085 (the latter three pass the
source's character class: tab and CR are outside the stripped
`\x00-\x08\x0B\x0C\x0E-\x1F` range and match `\s`, as does U+0085), its
output has no run of two or more spaces, and no run of three or more
newlines. -/
theorem clean_ctl_amended : ∀ text : List Char,
    (∀ c ∈ cleanPdfArtifacts text, isCtlCh c = true →
      c.toNat = 9 ∨ c.toNat = 10 ∨ c.toNat = 13 ∨ c.toNat = 0x85) ∧
    ¬ ([' ', ' '] <:+: cleanPdfArtifacts text) ∧
    ¬ (['\n', '\n', '\n'] <:+: cleanPdfArtifacts text) := by
  intro text
  refine ⟨?_, ?_, ?_⟩
  · intro c hmem hctl
    rcases mem_clean hmem with h | ⟨hb, ha⟩
    · exact Or.inr (Or.inl (by rw [h]; rfl))
    · exact ctl_char_cases hb ha hctl
  · apply not_within_dd
    apply hasDD_false_within (pyStrip_within _)
    exact hasDD_collapseNewlines (hasDD_collapseSpaces _)
  · apply not_within_tn
    apply hasTN_false_within (pyStrip_within _)
    exact hasTN_collapseNewlines _

/-- C8, counterexample to the claim as stated: the sanitizer keeps the
tab character, a control character distinct from newline, so its output
is not free of control characters other than `\n`. -/
theorem clean_ctl_counterexample :
    '\t' ∈ cleanPdfArtifacts ('a' :: '\t' :: 'b' :: []) ∧
    isCtlCh '\t' = true ∧ '\t' ≠ '\n' := by
  refine ⟨?_, rfl, by decide⟩
  decide

/-- Witness for the amended C8 at a concrete input. -/
theorem clean_ctl_amended_witness :
    '\t' ∈ cleanPdfArtifacts ('a' :: '\t' :: 'b' :: []) ∧
    isCtlCh '\t' = true ∧
    (('\t').toNat = 9 ∨ ('\t').toNat = 10 ∨ ('\t').toNat = 13 ∨
      ('\t').toNat = 0x85) :=
  ⟨by decide, rfl,
    (clean_ctl_amended ('a' :: '\t' :: 'b' :: [])).1 '\t' (by decide) rfl⟩

theorem clean_chars_ok {c : Char} {t : List Char}
    (h : c ∈ cleanPdfArtifacts t) :
    bannedCtl c = false ∧ allowedCh c = true := by
  rcases mem_clean h with h2 | h2
  · subst h2
    exact ⟨rfl, rfl⟩
  · exact h2

theorem collapseSpaces_id {l : List Char} (hno : hasDD l = false) :
    collapseSpaces l = l := by
  induction l with
  | nil => rfl
  | cons c rest ih =>
    cases rest with
    | nil => rfl
    | cons b t =>
      have hpair : ¬ (c = ' ' ∧ b = ' ') := by
        intro hcb
        rw [hcb.1, hcb.2] at hno
        simp [hasDD] at hno
      have hrest : hasDD (b :: t) = false :=
        hasDD_false_sfx (List.suffix_cons _ _) hno
      have hstep : collapseSpaces (c :: b :: t) =
          c :: collapseSpaces (b :: t) := by
        simp only [collapseSpaces, Bool.and_eq_true, decide_eq_true_eq]
        rw [if_neg hpair]
      rw [hstep, ih hrest]

theorem cnAux_id (l : List Char) : ∀ run : Nat, run ≤ 2 →
    hasTN (List.replicate run '\n' ++ l) = false →
    cnAux run l = List.replicate run '\n' ++ l := by
  induction l with
  | nil =>
    intro run hrun _
    show List.replicate (min run 2) '\n' = _
    rw [Nat.min_eq_left hrun]
    simp
  | cons c rest ih =>
    intro run hrun hno
    by_cases h : c = '\n'
    · subst h
      have hshift : List.replicate (run + 1) '\n' ++ rest =
          List.replicate run '\n' ++ '\n' :: rest := by
        rw [List.replicate_succ' ]
        simp
      have hrun2 : run + 1 ≤ 2 := by
        rcases Nat.lt_or_ge run 2 with h2 | h2
        · omega
        · exfalso
          have hr2 : run = 2 := by omega
          subst hr2
          simp only [List.replicate_succ, List.replicate_zero,
            List.nil_append, List.cons_append] at hno
          simp [hasTN] at hno
      simp only [cnAux, if_pos rfl]
      rw [ih (run + 1) hrun2 (by rw [hshift]; exact hno), hshift]
      simp
    · simp only [cnAux, if_neg h]
      rw [Nat.min_eq_left hrun]
      have hsuf : hasTN rest = false := by
        refine hasTN_false_sfx ?_ hno
        exact List.IsSuffix.trans (List.suffix_cons c rest)
          (List.suffix_append (List.replicate run '\n') (c :: rest))
      rw [ih 0 (by omega) (by simpa using hsuf)]
      simp

theorem collapseNewlines_id {l : List Char} (hno : hasTN l = false) :
    collapseNewlines l = l := by
  have := cnAux_id l 0 (by omega) (by simpa using hno)
  simpa using this

/-- C9, confirmed: the sanitizer is idempotent. -/
theorem clean_idempotent (x : List Char) :
    cleanPdfArtifacts (cleanPdfArtifacts x) = cleanPdfArtifacts x := by
  set y := cleanPdfArtifacts x with hy
  have hfilter1 : y.filter (fun c => !bannedCtl c) = y := by
    rw [List.filter_eq_self]
    intro a ha
    simp [(clean_chars_ok ha).1]
  have hfilter2 : y.filter allowedCh = y := by
    rw [List.filter_eq_self]
    intro a ha
    exact (clean_chars_ok ha).2
  have hnodd : hasDD y = false := by
    rw [hy]
    exact hasDD_false_within (pyStrip_within _)
      (hasDD_collapseNewlines (hasDD_collapseSpaces _))
  have hnotn : hasTN y = false := by
    rw [hy]
    exact hasTN_false_within (pyStrip_within _) (hasTN_collapseNewlines _)
  show pyStrip (collapseNewlines (collapseSpaces
    ((y.filter (fun c => !bannedCtl c)).filter allowedCh))) = y
  rw [hfilter1, hfilter2, collapseSpaces_id hnodd, collapseNewlines_id hnotn]
  rw [hy]
  exact pyStrip_idem _

theorem dedupeByIdAux_sub (seen : List (List Char)) (ds : List Doc) :
    (dedupeByIdAux seen ds).Sublist ds := by
  induction ds generalizing seen with
  | nil => simp [dedupeByIdAux]
  | cons d ds ih =>
    by_cases h : strId d ≠ [] ∧ strId d ∉ seen
    · rw [dedupeByIdAux, if_pos h]
      exact (ih _).cons₂ _
    · rw [dedupeByIdAux, if_neg h]
      exact (ih _).cons _

theorem dedupeByIdAux_notin (seen : List (List Char)) (ds : List Doc) :
    ∀ d ∈ dedupeByIdAux seen ds, strId d ≠ [] ∧ strId d ∉ seen := by
  induction ds generalizing seen with
  | nil => simp [dedupeByIdAux]
  | cons d ds ih =>
    by_cases h : strId d ≠ [] ∧ strId d ∉ seen
    · rw [dedupeByIdAux, if_pos h]
      intro e he
      rcases List.mem_cons.mp he with he | he
      · subst he
        exact h
      · have h2 := ih _ e he
        refine ⟨h2.1, fun hmem => h2.2 (List.mem_cons_of_mem _ hmem)⟩
    · rw [dedupeByIdAux, if_neg h]
      exact ih _

theorem dedupeByIdAux_pairwise (seen : List (List Char)) (ds : List Doc) :
    (dedupeByIdAux seen ds).Pairwise (fun a b => strId a ≠ strId b) := by
  induction ds generalizing seen with
  | nil => simp [dedupeByIdAux]
  | cons d ds ih =>
    by_cases h : strId d ≠ [] ∧ strId d ∉ seen
    · rw [dedupeByIdAux, if_pos h]
      refine List.Pairwise.cons ?_ (ih _)
      intro e he
      have h2 := dedupeByIdAux_notin _ _ e he
      intro heq
      exact h2.2 (by rw [← heq]; exact List.mem_cons_self _ _)
    · rw [dedupeByIdAux, if_neg h]
      exact ih _

theorem dedupeByIdAux_first_seen (ds : List Doc) :
    ∀ (seen : List (List Char)) (i : Nat) (hi : i < ds.length),
    strId ds[i] ≠ [] → strId ds[i] ∉ seen →
    (∀ j (hj : j < i), strId (ds.get ⟨j, by omega⟩) ≠ strId ds[i]) →
    ds[i] ∈ dedupeByIdAux seen ds := by
  induction ds with
  | nil =>
    intro seen i hi
    simp at hi
  | cons d ds ih =>
    intro seen i hi hne hnotseen hfirst
    cases i with
    | zero =>
      have h : strId d ≠ [] ∧ strId d ∉ seen := ⟨hne, hnotseen⟩
      rw [dedupeByIdAux, if_pos h]
      exact List.mem_cons_self _ _
    | succ k =>
      have hk : k < ds.length := by
        simpa using hi
      by_cases h : strId d ≠ [] ∧ strId d ∉ seen
      · rw [dedupeByIdAux, if_pos h]
        refine List.mem_cons_of_mem _ ?_
        refine ih (strId d :: seen) k hk ?_ ?_ ?_
        · simpa using hne
        · intro hmem
          rcases List.mem_cons.mp hmem with hm | hm
          · have := hfirst 0 (by omega)
            simp at this
            exact this hm.symm
          · exact hnotseen (by simpa using hm)
        · intro j hj
          have := hfirst (j + 1) (by omega)
          simpa using this
      · rw [dedupeByIdAux, if_neg h]
        refine ih seen k hk (by simpa using hne) ?_ ?_
        · simpa using hnotseen
        · intro j hj
          have := hfirst (j + 1) (by omega)
          simpa using this

/-- C4, confirmed: the id-based deduplication of `advanced_search` keeps
at most one document per stringified id, only documents with a non-empty
id, in first-seen order (the output is a sublist of the input, hence no
longer than it), and for every id present it keeps exactly the first
document bearing it. -/
theorem dedupe_correct (docs : List Doc) :
    (dedupeById docs).Sublist docs ∧
    (dedupeById docs).Pairwise (fun a b => strId a ≠ strId b) ∧
    (∀ d ∈ dedupeById docs, strId d ≠ []) ∧
    (dedupeById docs).length ≤ docs.length ∧
    (∀ i (hi : i < docs.length), strId docs[i] ≠ [] →
      (∀ j (hj : j < i), strId (docs.get ⟨j, by omega⟩) ≠ strId docs[i]) →
      docs[i] ∈ dedupeById docs) := by
  refine ⟨dedupeByIdAux_sub [] docs, dedupeByIdAux_pairwise [] docs,
    fun d hd => (dedupeByIdAux_notin [] docs d hd).1,
    (dedupeByIdAux_sub [] docs).length_le, ?_⟩
  intro i hi hne hfirst
  exact dedupeByIdAux_first_seen docs [] i hi hne (by simp) hfirst

/-- Witness for C4 at a concrete input: ids `"1"`, missing, `"1"`, `"2"`;
the first-seen rule keeps positions 0 and 3. -/
theorem dedupe_correct_witness :
    (dedupeById
        [⟨some ['1'], ['a'], none, none, none, none⟩,
         ⟨none, ['b'], none, none, none, none⟩,
         ⟨some ['1'], ['c'], none, none, none, none⟩,
         ⟨some ['2'], ['d'], none, none, none, none⟩]).Sublist
      [⟨some ['1'], ['a'], none, none, none, none⟩,
       ⟨none, ['b'], none, none, none, none⟩,
       ⟨some ['1'], ['c'], none, none, none, none⟩,
       ⟨some ['2'], ['d'], none, none, none, none⟩] ∧
    (⟨some ['2'], ['d'], none, none, none, none⟩ : Doc) ∈ dedupeById
      [⟨some ['1'], ['a'], none, none, none, none⟩,
       ⟨none, ['b'], none, none, none, none⟩,
       ⟨some ['1'], ['c'], none, none, none, none⟩,
       ⟨some ['2'], ['d'], none, none, none, none⟩] := by
  constructor
  · exact (dedupe_correct _).1
  · have h := (dedupe_correct
      [⟨some ['1'], ['a'], none, none, none, none⟩,
       ⟨none, ['b'], none, none, none, none⟩,
       ⟨some ['1'], ['c'], none, none, none, none⟩,
       ⟨some ['2'], ['d'], none, none, none, none⟩]).2.2.2.2
    exact h 3 (by decide) (by decide) (by decide)

/-- C6, confirmed: with a non-empty document list, when the reranker is
unavailable, and likewise when the scoring call raises, `rerank_documents`
returns exactly the first `top_k` documents in input order. -/
theorem rerank_fallback (strRepr : Doc → List Char)
    (scoresOf : List (List Char × List Char) → Option (List ℚ))
    (query : List Char) (docs : List Doc) (topK : Nat)
    (hne : docs ≠ []) :
    rerankDocuments strRepr scoresOf false query docs topK =
      docs.take topK ∧
    (scoresOf (mkPairs strRepr query docs) = none →
      rerankDocuments strRepr scoresOf true query docs topK =
        docs.take topK) := by
  constructor
  · rw [rerankDocuments, if_neg hne]
    simp
  · intro hfail
    rw [rerankDocuments, if_neg hne]
    have hpairs : mkPairs strRepr query docs ≠ [] := by
      rw [mkPairs]
      simpa using hne
    simp only [Bool.not_true, if_neg]
    rw [if_neg (by simp), if_neg hpairs, hfail]

/-- Witness for C6 at a concrete input. -/
theorem rerank_fallback_witness :
    rerankDocuments (fun _ => []) (fun _ => none) false []
        [⟨some ['1'], ['a'], none, none, none, none⟩,
         ⟨some ['2'], ['b'], none, none, none, none⟩] 1 =
      [⟨some ['1'], ['a'], none, none, none, none⟩] ∧
    rerankDocuments (fun _ => []) (fun _ => none) true []
        [⟨some ['1'], ['a'], none, none, none, none⟩,
         ⟨some ['2'], ['b'], none, none, none, none⟩] 1 =
      [⟨some ['1'], ['a'], none, none, none, none⟩] := by
  have h := rerank_fallback (fun _ => []) (fun _ => none) []
    [⟨some ['1'], ['a'], none, none, none, none⟩,
     ⟨some ['2'], ['b'], none, none, none, none⟩] 1 (by decide)
  exact ⟨h.1, h.2 rfl⟩

/-- C7, confirmed: `advanced_search` deduplicates by id, returns empty
when nothing remains, and otherwise either reranks
`min(top_k * 3, #deduplicated)` candidates and takes the first `top_k`
of the reranked list, or (reranking disabled) takes the first `top_k`
deduplicated candidates in arrival order. -/
theorem advanced_search_spec (strRepr : Doc → List Char)
    (scoresOf : List (List Char × List Char) → Option (List ℚ))
    (available useReranker : Bool) (botId query : List Char)
    (vectorResults : List Doc) (topK : Nat) :
    (dedupeById vectorResults = [] →
      advancedSearch strRepr scoresOf available useReranker botId query
        vectorResults topK = []) ∧
    (useReranker = true →
      advancedSearch strRepr scoresOf available useReranker botId query
        vectorResults topK =
      (rerankDocuments strRepr scoresOf available query
        (dedupeById vectorResults)
        (min (topK * 3) (dedupeById vectorResults).length)).take topK) ∧
    (useReranker = false → dedupeById vectorResults ≠ [] →
      advancedSearch strRepr scoresOf available useReranker botId query
        vectorResults topK = (dedupeById vectorResults).take topK) := by
  refine ⟨?_, ?_, ?_⟩
  · intro h
    rw [advancedSearch]
    simp [h]
  · intro h
    subst h
    rw [advancedSearch]
    by_cases h2 : dedupeById vectorResults = []
    · rw [if_pos h2]
      rw [rerankDocuments, if_pos h2]
      simp
    · rw [if_pos rfl]
      · rw [if_neg h2]
  · intro h h2
    subst h
    rw [advancedSearch, if_neg h2]
    simp

/-- Witness for C7 at a concrete input (two documents sharing id `"1"`,
reranker disabled). -/
theorem advanced_search_spec_witness :
    advancedSearch (fun _ => []) (fun _ => some []) true false [] []
        [⟨some ['1'], ['a'], none, none, none, none⟩,
         ⟨some ['1'], ['b'], none, none, none, none⟩,
         ⟨some ['2'], ['c'], none, none, none, none⟩] 1 =
      [⟨some ['1'], ['a'], none, none, none, none⟩] := by
  have h := (advanced_search_spec (fun _ => []) (fun _ => some []) true
    false [] []
    [⟨some ['1'], ['a'], none, none, none, none⟩,
     ⟨some ['1'], ['b'], none, none, none, none⟩,
     ⟨some ['2'], ['c'], none, none, none, none⟩] 1).2.2 rfl (by decide)
  rw [h]
  decide

theorem assignScores_length (scores : List ℚ) (docs : List Doc) :
    (assignScores scores docs).length = docs.length := by
  simp [assignScores]

theorem assignScores_get (scores : List ℚ) (docs : List Doc) (i : Nat)
    (hi : i < docs.length) :
    (assignScores scores docs)[i]? =
      some { docs[i] with rerank_score := some (scores.getD i 0) } := by
  have hlen : i < (assignScores scores docs).length := by
    rwa [assignScores_length]
  rw [List.getElem?_eq_getElem hlen]
  congr 1
  simp [assignScores]

theorem scoreLe_trans : ∀ a b c : Doc,
    (decide (rerankKey b ≤ rerankKey a)) = true →
    (decide (rerankKey c ≤ rerankKey b)) = true →
    (decide (rerankKey c ≤ rerankKey a)) = true := by
  intro a b c h1 h2
  simp only [decide_eq_true_eq] at h1 h2 ⊢
  exact h2.trans h1

theorem scoreLe_total : ∀ a b : Doc,
    ((decide (rerankKey b ≤ rerankKey a)) ||
      (decide (rerankKey a ≤ rerankKey b))) = true := by
  intro a b
  simp only [Bool.or_eq_true, decide_eq_true_eq]
  exact le_total _ _

/-- C5, confirmed: when the collaborator returns a score list,
`rerank_documents` assigns the i-th score to the i-th document (with
`0.0` past the end of the score list), and returns the first `top_k` of
the stable descending sort by `rerank_score` (sorted output, permutation
of the scored documents, ties keeping their pre-sort relative order). -/
theorem rerank_scores_spec (strRepr : Doc → List Char)
    (scoresOf : List (List Char × List Char) → Option (List ℚ))
    (query : List Char) (docs : List Doc) (topK : Nat) (scores : List ℚ)
    (hscores : scoresOf (mkPairs strRepr query docs) = some scores)
    (hne : docs ≠ []) :
    rerankDocuments strRepr scoresOf true query docs topK =
        (sortByScoreDesc (assignScores scores docs)).take topK ∧
    (assignScores scores docs).length = docs.length ∧
    (∀ i (hi : i < docs.length),
      (assignScores scores docs)[i]? =
        some { docs[i] with rerank_score := some (scores.getD i 0) }) ∧
    (sortByScoreDesc (assignScores scores docs)).Pairwise
      (fun a b => rerankKey b ≤ rerankKey a) ∧
    (sortByScoreDesc (assignScores scores docs)).Perm
      (assignScores scores docs) ∧
    (∀ a b : Doc, List.Sublist [a, b] (assignScores scores docs) →
      rerankKey a = rerankKey b →
      List.Sublist [a, b] (sortByScoreDesc (assignScores scores docs))) := by
  refine ⟨?_, assignScores_length _ _, assignScores_get _ _, ?_, ?_, ?_⟩
  · rw [rerankDocuments, if_neg hne]
    have hpairs : mkPairs strRepr query docs ≠ [] := by
      rw [mkPairs]
      simpa using hne
    simp only [Bool.not_true, if_neg]
    rw [if_neg (by simp), if_neg hpairs, hscores]
  · have h := List.sorted_mergeSort scoreLe_trans scoreLe_total
      (assignScores scores docs)
    refine h.imp ?_
    intro a b hab
    simpa using hab
  · exact List.mergeSort_perm _ _
  · intro a b hsub heq
    refine List.sublist_mergeSort scoreLe_trans scoreLe_total ?_ hsub
    refine List.pairwise_pair.mpr ?_
    simp [heq]

/-- Witness for C5 at a concrete input: two documents scored `[1, 5]`;
the higher-scored second document comes first and both facts follow by
applying `rerank_scores_spec`. -/
theorem rerank_scores_spec_witness :
    rerankDocuments (fun _ => []) (fun _ => some [1, 5]) true []
        [⟨some ['1'], ['a'], none, none, none, none⟩,
         ⟨some ['2'], ['b'], none, none, none, none⟩] 2 =
      (sortByScoreDesc (assignScores [1, 5]
        [⟨some ['1'], ['a'], none, none, none, none⟩,
         ⟨some ['2'], ['b'], none, none, none, none⟩])).take 2 ∧
    (sortByScoreDesc (assignScores [1, 5]
        [⟨some ['1'], ['a'], none, none, none, none⟩,
         ⟨some ['2'], ['b'], none, none, none, none⟩])).Pairwise
      (fun a b => rerankKey b ≤ rerankKey a) := by
  have h := rerank_scores_spec (fun _ => []) (fun _ => some [1, 5]) []
    [⟨some ['1'], ['a'], none, none, none, none⟩,
     ⟨some ['2'], ['b'], none, none, none, none⟩] 2 [1, 5] rfl (by decide)
  exact ⟨h.1, h.2.2.2.1⟩

theorem keepDoc_empty (kws : List (List Char)) (mh : Option (List Char))
    (maxR : ℚ) (d : Doc) : keepDoc kws mh maxR [] d = true := by
  rw [keepDoc.eq_def]
  simp

theorem filterPass_fold_app (kws : List (List Char))
    (mh : Option (List Char)) (maxR : ℚ) (ds : List Doc) :
    ∀ acc : List Doc, ∃ rest, ds.foldl (fun filtered d =>
      if keepDoc kws mh maxR filtered d then filtered ++ [d] else filtered)
      acc = acc ++ rest := by
  induction ds with
  | nil =>
    intro acc
    exact ⟨[], by simp⟩
  | cons d ds ih =>
    intro acc
    simp only [List.foldl_cons]
    by_cases h : keepDoc kws mh maxR acc d = true
    · rw [if_pos h]
      obtain ⟨r, hr⟩ := ih (acc ++ [d])
      exact ⟨[d] ++ r, by rw [hr, List.append_assoc]⟩
    · rw [if_neg h]
      exact ih acc

theorem filterPass_cons (kws : List (List Char)) (mh : Option (List Char))
    (maxR : ℚ) (d : Doc) (ds : List Doc) :
    ∃ rest, filterPass kws mh maxR (d :: ds) = d :: rest := by
  rw [filterPass]
  simp only [List.foldl_cons]
  rw [if_pos (keepDoc_empty kws mh maxR d)]
  obtain ⟨r, hr⟩ := filterPass_fold_app kws mh maxR ds ([] ++ [d])
  exact ⟨r, by simpa using hr⟩

theorem recallNetAux_ne (minDocs : Nat) (ds : List Doc) :
    ∀ f : List Doc, f ≠ [] → recallNetAux minDocs f ds ≠ [] := by
  induction ds with
  | nil =>
    intro f hf
    simpa [recallNetAux] using hf
  | cons d ds ih =>
    intro f hf
    rw [recallNetAux]
    by_cases h : d ∈ f
    · rw [if_pos h]
      exact ih f hf
    · rw [if_neg h]
      by_cases h2 : minDocs ≤ (f ++ [d]).length
      · rw [if_pos h2]
        simp
      · rw [if_neg h2]
        exact ih _ (by simp)

theorem recallNet_ne (minDocs : Nat) (docs f : List Doc) (hf : f ≠ []) :
    recallNet minDocs docs f ≠ [] := by
  rw [recallNet]
  by_cases h : f.length < minDocs
  · rw [if_pos h]
    exact recallNetAux_ne minDocs docs f hf
  · rw [if_neg h]
    exact hf

/-- C10, confirmed: the filter pass of `build_context` keeps the very
first document regardless of keyword, header or score threshold, so the
filtered list (and the recall-net extension of it) is never empty, and
the total-fallback branch collapses: `contextDocs` is the text-dedup of
the recall-net result. -/
theorem build_context_first_doc (query : List Char) (docs : List Doc)
    (minDocs : Nat) (hne : docs ≠ []) :
    (∃ rest, filterPass (extractKeywords query) (mainHeader docs)
        (maxRerank docs) docs = docs.head hne :: rest) ∧
    recallNet minDocs docs (filterPass (extractKeywords query)
      (mainHeader docs) (maxRerank docs) docs) ≠ [] ∧
    contextDocs query docs minDocs = dedupeByText (recallNet minDocs docs
      (filterPass (extractKeywords query) (mainHeader docs)
        (maxRerank docs) docs)) := by
  obtain ⟨d, ds, rfl⟩ := List.exists_cons_of_ne_nil hne
  obtain ⟨rest, hrest⟩ := filterPass_cons (extractKeywords query)
    (mainHeader (d :: ds)) (maxRerank (d :: ds)) d ds
  have hfil_ne : filterPass (extractKeywords query) (mainHeader (d :: ds))
      (maxRerank (d :: ds)) (d :: ds) ≠ [] := by
    rw [hrest]
    simp
  have hnet := recallNet_ne minDocs (d :: ds) _ hfil_ne
  refine ⟨⟨rest, by simpa using hrest⟩, hnet, ?_⟩
  rw [contextDocs]
  rw [if_neg hnet]

/-- Witness for C10 at a concrete input. -/
theorem build_context_first_doc_witness :
    recallNet 8 [⟨none, ['z'], none, none, none, none⟩]
      (filterPass (extractKeywords [])
        (mainHeader [⟨none, ['z'], none, none, none, none⟩])
        (maxRerank [⟨none, ['z'], none, none, none, none⟩])
        [⟨none, ['z'], none, none, none, none⟩]) ≠ [] ∧
    contextDocs [] [⟨none, ['z'], none, none, none, none⟩] 8 =
      dedupeByText (recallNet 8 [⟨none, ['z'], none, none, none, none⟩]
        (filterPass (extractKeywords [])
          (mainHeader [⟨none, ['z'], none, none, none, none⟩])
          (maxRerank [⟨none, ['z'], none, none, none, none⟩])
          [⟨none, ['z'], none, none, none, none⟩])) := by
  have h := build_context_first_doc [] [⟨none, ['z'], none, none, none,
    none⟩] 8 (by decide)
  exact ⟨h.2.1, h.2.2⟩

theorem pack_sum (maxChars maxDocs : Nat) (ds : List Doc) :
    ∀ (parts : List (List Char)) (total : Nat),
    ((parts.map List.length).sum = total) → total ≤ maxChars →
    (((packLoop maxChars maxDocs parts total ds).map List.length).sum ≤
      maxChars + 3) := by
  induction ds with
  | nil =>
    intro parts total hsum htot
    rw [packLoop]
    omega
  | cons d ds ih =>
    intro parts total hsum htot
    rw [packLoop]
    by_cases h1 : pyStrip d.text = []
    · rw [if_pos h1]
      exact ih parts total hsum htot
    · rw [if_neg h1]
      by_cases h2 : (pyStrip d.text).length < 120 ∧ '.' ∉ pyStrip d.text ∧
          '\n' ∉ pyStrip d.text ∧ parts ≠ []
      · rw [if_pos h2]
        exact ih parts total hsum htot
      · rw [if_neg h2]
        by_cases h3 : maxDocs ≤ parts.length
        · rw [if_pos h3]
          omega
        · rw [if_neg h3]
          by_cases h4 : total + (pyStrip d.text).length > maxChars
          · rw [if_pos h4]
            by_cases h5 : maxChars - total > 500
            · rw [if_pos h5]
              have hlen : ((pyStrip d.text).take
                  (maxChars - total)).length ≤ maxChars - total := by
                simp
              simp only [List.map_append, List.sum_append, List.map_cons,
                List.map_nil, List.sum_cons, List.sum_nil, List.length_append]
              have hdots : dots.length = 3 := rfl
              omega
            · rw [if_neg h5]
              omega
          · rw [if_neg h4]
            refine ih _ _ ?_ (by omega)
            simp only [List.map_append, List.sum_append, List.map_cons,
              List.map_nil, List.sum_cons, List.sum_nil]
            omega

theorem pack_count (maxChars maxDocs : Nat) (ds : List Doc) :
    ∀ (parts : List (List Char)) (total : Nat),
    parts.length ≤ maxDocs →
    (packLoop maxChars maxDocs parts total ds).length ≤ maxDocs := by
  induction ds with
  | nil =>
    intro parts total hcnt
    rw [packLoop]
    exact hcnt
  | cons d ds ih =>
    intro parts total hcnt
    rw [packLoop]
    by_cases h1 : pyStrip d.text = []
    · rw [if_pos h1]
      exact ih parts total hcnt
    · rw [if_neg h1]
      by_cases h2 : (pyStrip d.text).length < 120 ∧ '.' ∉ pyStrip d.text ∧
          '\n' ∉ pyStrip d.text ∧ parts ≠ []
      · rw [if_pos h2]
        exact ih parts total hcnt
      · rw [if_neg h2]
        by_cases h3 : maxDocs ≤ parts.length
        · rw [if_pos h3]
          exact hcnt
        · rw [if_neg h3]
          by_cases h4 : total + (pyStrip d.text).length > maxChars
          · rw [if_pos h4]
            by_cases h5 : maxChars - total > 500
            · rw [if_pos h5]
              simp only [List.length_append, List.length_cons,
                List.length_nil]
              omega
            · rw [if_neg h5]
              exact hcnt.trans (by omega)
          · rw [if_neg h4]
            refine ih _ _ ?_
            simp only [List.length_append, List.length_cons, List.length_nil]
            omega

theorem joinBlank_length (parts : List (List Char)) :
    (joinBlank parts).length =
      (parts.map List.length).sum + 2 * (parts.length - 1) := by
  induction parts with
  | nil => rfl
  | cons x xs ih =>
    cases xs with
    | nil => simp [joinBlank]
    | cons y r =>
      have hstep : joinBlank (x :: y :: r) =
          x ++ '\n' :: '\n' :: joinBlank (y :: r) := rfl
      rw [hstep]
      simp only [List.length_append, List.length_cons, List.map_cons,
        List.sum_cons]
      rw [ih]
      simp only [List.map_cons, List.sum_cons, List.length_cons]
      omega

theorem pack_trunc_last (maxChars maxDocs : Nat) (ds : List Doc) :
    ∀ (parts : List (List Char)) (total : Nat),
    packTruncated maxChars maxDocs parts total ds = true →
    ∃ ps x, packLoop maxChars maxDocs parts total ds = ps ++ [x] ∧
      dots <:+ x := by
  induction ds with
  | nil =>
    intro parts total h
    rw [packTruncated] at h
    exact absurd h (by simp)
  | cons d ds ih =>
    intro parts total h
    rw [packTruncated] at h
    rw [packLoop]
    by_cases h1 : pyStrip d.text = []
    · rw [if_pos h1] at h ⊢
      exact ih parts total h
    · rw [if_neg h1] at h ⊢
      by_cases h2 : (pyStrip d.text).length < 120 ∧ '.' ∉ pyStrip d.text ∧
          '\n' ∉ pyStrip d.text ∧ parts ≠ []
      · rw [if_pos h2] at h ⊢
        exact ih parts total h
      · rw [if_neg h2] at h ⊢
        by_cases h3 : maxDocs ≤ parts.length
        · rw [if_pos h3] at h
          exact absurd h (by simp)
        · rw [if_neg h3] at h ⊢
          by_cases h4 : total + (pyStrip d.text).length > maxChars
          · rw [if_pos h4] at h ⊢
            have h5 : maxChars - total > 500 := by
              by_contra h5
              rw [decide_eq_true_eq] at h
              exact h5 h
            rw [if_pos h5]
            exact ⟨parts, _, rfl, List.suffix_append _ _⟩
          · rw [if_neg h4] at h ⊢
            exact ih _ _ h

theorem joinBlank_app (ps : List (List Char)) (x : List Char) :
    ∃ pre, joinBlank (ps ++ [x]) = pre ++ x := by
  induction ps with
  | nil => exact ⟨[], rfl⟩
  | cons p ps ih =>
    cases ps with
    | nil => exact ⟨p ++ ['\n', '\n'], by simp [joinBlank]⟩
    | cons q r =>
      obtain ⟨pre, hpre⟩ := ih
      refine ⟨p ++ '\n' :: '\n' :: pre, ?_⟩
      have hstep : joinBlank ((p :: q :: r) ++ [x]) =
          p ++ '\n' :: '\n' :: joinBlank ((q :: r) ++ [x]) := rfl
      rw [hstep, hpre]
      simp

theorem contextDocs_nil (query : List Char) (minDocs : Nat) :
    contextDocs query [] minDocs = [] := by
  have h1 : filterPass (extractKeywords query) (mainHeader [])
      (maxRerank []) [] = [] := rfl
  rw [contextDocs]
  rw [h1]
  have h2 : recallNet minDocs [] [] = [] := by
    rw [recallNet]
    split
    · rfl
    · rfl
  rw [h2]
  rw [if_pos rfl]
  simp [dedupeByText, dedupeByTextAux]

/-- C1, amended: the context length can exceed `max_chars` only by the
three-character truncation marker and the two-character `"\n\n"` joiners —
it is bounded by `max_chars + 3 + 2*(max_docs - 1)` — and whenever the
packing loop truncates a document, the returned context ends with the
truncation marker `"..."`. -/
theorem build_context_budget (query : List Char) (docs : List Doc)
    (maxChars maxDocs minDocs : Nat) :
    (buildContext query docs maxChars maxDocs minDocs).length ≤
      maxChars + 3 + 2 * (maxDocs - 1) ∧
    (packTruncated maxChars maxDocs [] 0 (contextDocs query docs minDocs) =
        true →
      dots <:+ buildContext query docs maxChars maxDocs minDocs) := by
  by_cases hdocs : docs = []
  · subst hdocs
    constructor
    · rw [buildContext]
      simp
    · intro h
      rw [contextDocs_nil] at h
      rw [packTruncated] at h
      exact absurd h (by simp)
  · have hbc : buildContext query docs maxChars maxDocs minDocs =
        joinBlank (packLoop maxChars maxDocs [] 0
          (contextDocs query docs minDocs)) := by
      rw [buildContext, if_neg hdocs]
    constructor
    · rw [hbc, joinBlank_length]
      have hsum := pack_sum maxChars maxDocs
        (contextDocs query docs minDocs) [] 0 (by simp) (by omega)
      have hcnt := pack_count maxChars maxDocs
        (contextDocs query docs minDocs) [] 0 (by simp)
      omega
    · intro h
      obtain ⟨ps, x, hpack, hsuf⟩ := pack_trunc_last maxChars maxDocs
        (contextDocs query docs minDocs) [] 0 h
      rw [hbc, hpack]
      obtain ⟨pre, hpre⟩ := joinBlank_app ps x
      rw [hpre]
      exact hsuf.trans (List.suffix_append _ _)

/-- C1, counterexample to the claim as stated: with `max_chars = 10` and
two kept documents of lengths 4 and 5, both fit the character budget but
the `"\n\n"` joiner pushes the returned context to 11 characters,
exceeding `max_chars`. -/
theorem build_context_budget_counterexample :
    10 < (buildContext []
      [⟨none, ['a', 'b', 'c', '.'], none, none, none, none⟩,
       ⟨none, ['d', 'e', 'f', 'g', '.'], none, none, none, none⟩]
      10 30 8).length := by
  decide

set_option maxRecDepth 100000 in
/-- Witness for the amended C1 at a concrete input on which truncation
fires: one 503-character document against `max_chars = 502` is truncated
to 502 characters plus the marker. -/
theorem build_context_budget_witness :
    packTruncated 502 30 [] 0 (contextDocs []
      [⟨none, List.replicate 503 'a', none, none, none, none⟩] 8) = true ∧
    (buildContext [] [⟨none, List.replicate 503 'a', none, none, none,
      none⟩] 502 30 8).length ≤ 502 + 3 + 2 * (30 - 1) ∧
    dots <:+ buildContext []
      [⟨none, List.replicate 503 'a', none, none, none, none⟩] 502 30 8 := by
  refine ⟨by decide, ?_, ?_⟩
  · exact (build_context_budget []
      [⟨none, List.replicate 503 'a', none, none, none, none⟩] 502 30 8).1
  · exact (build_context_budget []
      [⟨none, List.replicate 503 'a', none, none, none, none⟩] 502 30 8).2
      (by decide)

theorem joinSp_within_of_mem {e : List Char} {cur : List (List Char)}
    (h : e ∈ cur) : e <:+: joinSp cur := by
  induction cur with
  | nil => simp at h
  | cons x xs ih =>
    cases xs with
    | nil =>
      rw [List.mem_singleton] at h
      subst h
      exact List.infix_refl _
    | cons y r =>
      rcases List.mem_cons.mp h with h | h
      · subst h
        have hstep : joinSp (e :: y :: r) = e ++ ' ' :: joinSp (y :: r) :=
          rfl
        rw [hstep]
        exact (List.prefix_append _ _).isInfix
      · have h2 := ih h
        have hstep : joinSp (x :: y :: r) = x ++ ' ' :: joinSp (y :: r) :=
          rfl
        rw [hstep]
        refine h2.trans ?_
        refine List.IsSuffix.isInfix ?_
        refine List.IsSuffix.trans ?_ (List.suffix_append x (' ' :: joinSp (y :: r)))
        exact ⟨[' '], rfl⟩

theorem joinSp_sfx_closeChunk (lh : List Char) (cur : List (List Char)) :
    joinSp cur <:+ closeChunk lh cur := by
  rw [closeChunk]
  split
  · exact List.IsSuffix.trans ⟨['\n'], rfl⟩ (List.suffix_append _ _)
  · exact List.suffix_refl _

theorem closeChunk_eq (lh : List Char) (cur : List (List Char))
    (h : lh = [] ∨ ∃ e ∈ cur, lh <:+: e) :
    closeChunk lh cur = joinSp cur := by
  rw [closeChunk]
  rw [if_neg]
  intro hcon
  rcases h with h | ⟨e, he, hwithin⟩
  · exact hcon.1 h
  · exact hcon.2 (hwithin.trans (joinSp_within_of_mem he))

theorem splitOnNl_ne (t : List Char) : splitOnNl t ≠ [] := by
  cases t with
  | nil => simp [splitOnNl]
  | cons c rest =>
    rw [splitOnNl]
    by_cases h : c = '\n'
    · simp [h]
    · rw [if_neg h]
      cases splitOnNl rest <;> simp

theorem splitOnNl_head (t : List Char) :
    ∃ ls, splitOnNl t = (t.takeWhile (· ≠ '\n')) :: ls := by
  induction t with
  | nil => exact ⟨[], rfl⟩
  | cons c rest ih =>
    by_cases h : c = '\n'
    · refine ⟨splitOnNl rest, ?_⟩
      rw [splitOnNl, if_pos h]
      subst h
      simp
  
    · obtain ⟨ls, hls⟩ := ih
      refine ⟨ls, ?_⟩
      rw [splitOnNl, if_neg h, hls]
      have : rest.takeWhile (· ≠ '\n') :: ls ≠ ([] : List (List Char)) := by
        simp
      rw [List.takeWhile_cons_of_pos (by simpa using h)]

theorem mem_splitOnNl_within {raw t : List Char} (h : raw ∈ splitOnNl t) :
    raw <:+: t := by
  induction t with
  | nil =>
    rw [show splitOnNl [] = [[]] from rfl, List.mem_singleton] at h
    subst h
    exact List.nil_infix
  | cons c rest ih =>
    by_cases hc : c = '\n'
    · rw [splitOnNl, if_pos hc] at h
      rcases List.mem_cons.mp h with h | h
      · subst h
        exact List.nil_infix
      · exact List.infix_cons (ih h)
    · rw [splitOnNl, if_neg hc] at h
      obtain ⟨ls, hls⟩ := splitOnNl_head rest
      rw [hls] at h
      rcases List.mem_cons.mp h with h | h
      · subst h
        refine List.IsPrefix.isInfix ?_
        obtain ⟨t2, ht2⟩ := @List.takeWhile_prefix Char rest
          (fun x => decide (x ≠ '\n'))
        exact ⟨t2, by rw [List.cons_append, ht2]⟩
      · refine List.infix_cons (ih ?_)
        rw [hls]
        exact List.mem_cons_of_mem _ h

theorem le_foldr_max {a : Nat} {l : List Nat} (h : a ∈ l) :
    a ≤ l.foldr max 0 := by
  induction l with
  | nil => simp at h
  | cons b t ih =>
    rcases List.mem_cons.mp h with h | h
    · subst h
      exact le_max_left _ _
    · exact (ih h).trans (le_max_right _ _)

theorem maxLineLen_mem {raw y : List Char} (h : raw ∈ splitOnNl y) :
    (pyStrip raw).length ≤ maxLineLen y := by
  refine le_foldr_max ?_
  rw [List.mem_map]
  exact ⟨raw, h, rfl⟩

theorem isHeading_len {line : List Char} (h : isHeading line = true) :
    line.length ≤ 180 := by
  by_contra hcon
  rw [isHeading, if_pos (by omega)] at h
  exact absurd h (by simp)

theorem tailTake_le (n : Nat) (l : List Char) :
    (tailTake n l).length ≤ n ∧ (tailTake n l).length ≤ l.length := by
  rw [tailTake]
  simp only [List.length_drop]
  omega

theorem landed_mono {s : ChunkState} {frag frag2 : List Char}
    (h : frag2 <:+: frag) (hl : landed s frag) : landed s frag2 := by
  obtain ⟨c, hc, hwithin⟩ := hl
  exact ⟨c, hc, h.trans hwithin⟩

theorem landed_close (s : ChunkState) {frag : List Char}
    (h : landed s frag) (chunks2 : List (List Char))
    (hsub : ∀ c ∈ s.chunks, c ∈ chunks2)
    (hclose : closeChunk s.lastHeader s.current ∈ chunks2) :
    ∀ cur2 len2 lh2, landed (⟨chunks2, cur2, len2, lh2⟩ : ChunkState) frag ∨
      (∃ e ∈ cur2, frag <:+: e) ∨
      (∃ c ∈ chunks2, frag <:+: c) := by
  intro cur2 len2 lh2
  obtain ⟨c, hc, hwithin⟩ := h
  rcases hc with hc | hc
  · exact Or.inr (Or.inr ⟨c, hsub c hc, hwithin⟩)
  · refine Or.inr (Or.inr ⟨closeChunk s.lastHeader s.current, hclose, ?_⟩)
    exact hwithin.trans ((joinSp_within_of_mem hc).trans
      (joinSp_sfx_closeChunk _ _).isInfix)

theorem landed_ite (cond : Prop) [Decidable cond] {S1 S2 : ChunkState}
    {frag : List Char} (h1 : cond → landed S1 frag)
    (h2 : ¬ cond → landed S2 frag) :
    landed (if cond then S1 else S2) frag := by
  by_cases h : cond
  · rw [if_pos h]
    exact h1 h
  · rw [if_neg h]
    exact h2 h

theorem landed_stepSent (chunkSize overlap : Nat) (hd : Bool)
    (s : ChunkState) (sent0 : List Char) {frag : List Char}
    (h : landed s frag) :
    landed (stepSent chunkSize overlap hd s sent0) frag := by
  obtain ⟨c, hc, hwithin⟩ := h
  simp only [stepSent]
  refine landed_ite _ (fun _ => ⟨c, hc, hwithin⟩) (fun _ => ?_)
  refine landed_ite _ (fun _ => ?_) (fun _ => ?_)
  · rcases hc with hc | hc
    · exact ⟨c, Or.inl (List.mem_append_left _ hc), hwithin⟩
    · refine ⟨closeChunk s.lastHeader s.current,
        Or.inl (List.mem_append_right _ (by simp)), ?_⟩
      exact hwithin.trans ((joinSp_within_of_mem hc).trans
        (joinSp_sfx_closeChunk _ _).isInfix)
  · rcases hc with hc | hc
    · exact ⟨c, Or.inl hc, hwithin⟩
    · exact ⟨c, Or.inr (List.mem_append_left _ hc), hwithin⟩

theorem stepSent_lands (chunkSize overlap : Nat) (hd : Bool)
    (s : ChunkState) (sent0 : List Char)
    (hlen : 3 ≤ (pyStrip sent0).length) :
    landed (stepSent chunkSize overlap hd s sent0) (pyStrip sent0) := by
  have hne : ¬ (pyStrip sent0 = [] ∨ (pyStrip sent0).length < 3) := by
    rintro (h | h)
    · rw [h] at hlen
      simp at hlen
    · omega
  have hsfx1 : pyStrip sent0 <:+:
      (if ¬hd = true ∧ s.lastHeader ≠ [] then
        s.lastHeader ++ ':' :: ' ' :: pyStrip sent0
      else pyStrip sent0) := by
    by_cases h : ¬hd = true ∧ s.lastHeader ≠ []
    · rw [if_pos h]
      exact List.IsSuffix.isInfix
        (List.IsSuffix.trans ⟨[':', ' '], rfl⟩ (List.suffix_append _ _))
    · rw [if_neg h]
  simp only [stepSent]
  refine landed_ite _ (fun hskip => absurd hskip hne) (fun _ => ?_)
  refine landed_ite _ (fun _ => ?_) (fun _ => ?_)
  · exact ⟨_, Or.inr (List.mem_append_right _ (by simp)), hsfx1⟩
  · exact ⟨_, Or.inr (List.mem_append_right _ (by simp)), hsfx1⟩

theorem landed_foldSent (chunkSize overlap : Nat) (hd : Bool)
    (sents : List (List Char)) :
    ∀ (s : ChunkState) {frag : List Char}, landed s frag →
    landed (sents.foldl (stepSent chunkSize overlap hd) s) frag := by
  induction sents with
  | nil =>
    intro s frag h
    exact h
  | cons x xs ih =>
    intro s frag h
    exact ih _ (landed_stepSent _ _ _ _ _ h)

theorem foldSent_lands (chunkSize overlap : Nat) (hd : Bool)
    (sents : List (List Char)) (s : ChunkState) {x : List Char}
    (hx : x ∈ sents) (hlen : 3 ≤ (pyStrip x).length) :
    landed (sents.foldl (stepSent chunkSize overlap hd) s) (pyStrip x) := by
  obtain ⟨l1, l2, rfl⟩ := List.append_of_mem hx
  rw [List.foldl_append, List.foldl_cons]
  exact landed_foldSent _ _ _ _ _
    (stepSent_lands _ _ _ _ _ hlen)

theorem landed_setHeader {X : ChunkState} {frag : List Char}
    (l : List Char) (h : landed X frag) :
    landed { X with lastHeader := l } frag := by
  obtain ⟨c, hc, hw⟩ := h
  exact ⟨c, hc, hw⟩

theorem landed_closeState (s : ChunkState) {frag : List Char}
    (h : landed s frag) :
    landed { s with
      chunks := s.chunks ++ [closeChunk s.lastHeader s.current],
      current := ([] : List (List Char)), currentLen := 0 } frag := by
  obtain ⟨c, hc, hw⟩ := h
  rcases hc with hc | hc
  · exact ⟨c, Or.inl (List.mem_append_left _ hc), hw⟩
  · refine ⟨closeChunk s.lastHeader s.current,
      Or.inl (List.mem_append_right _ (by simp)), ?_⟩
    exact hw.trans ((joinSp_within_of_mem hc).trans
      (joinSp_sfx_closeChunk _ _).isInfix)

theorem landed_stepLine (tok : List Char → List (List Char))
    (chunkSize overlap : Nat) (s : ChunkState) (raw : List Char)
    {frag : List Char} (h : landed s frag) :
    landed (stepLine tok chunkSize overlap s raw) frag := by
  simp only [stepLine]
  refine landed_ite _ (fun _ => h) (fun _ => ?_)
  refine landed_foldSent _ _ _ _ _ ?_
  refine landed_ite _ (fun _ => ?_) (fun _ => ?_)
  · refine landed_setHeader _ ?_
    exact landed_ite _ (fun _ => landed_closeState s h) (fun _ => h)
  · exact landed_ite _ (fun _ => landed_closeState s h) (fun _ => h)

theorem stepLine_lands (tok : List Char → List (List Char))
    (chunkSize overlap : Nat) (s : ChunkState) (raw sx : List Char)
    (htok : ∀ l x, x ∈ tok l → x <:+: l)
    (hsx : sx ∈ tok (pyStrip raw)) (hlen : 3 ≤ (pyStrip sx).length) :
    landed (stepLine tok chunkSize overlap s raw) (pyStrip sx) := by
  have hsxline : sx <:+: pyStrip raw := htok _ _ hsx
  have hlinelen : 3 ≤ (pyStrip raw).length :=
    le_trans hlen ((pyStrip_length_le sx).trans hsxline.length_le)
  have hlinene : pyStrip raw ≠ [] := by
    intro h
    rw [h] at hlinelen
    simp at hlinelen
  have hmono : pyStrip sx <:+: pyStrip raw :=
    (pyStrip_within sx).trans hsxline
  simp only [stepLine]
  rw [if_neg hlinene]
  by_cases hhead : isHeading (pyStrip raw) = true
  · simp only [hhead, if_true]
    refine landed_mono hmono ?_
    rw [List.foldl_cons, List.foldl_nil]
    have hkey : pyStrip (pyStrip raw) = pyStrip raw := pyStrip_idem raw
    have h2 := stepSent_lands chunkSize overlap true
      ⟨(if True ∧ s.current ≠ [] then
          { s with
            chunks := s.chunks ++ [closeChunk s.lastHeader s.current],
            current := ([] : List (List Char)), currentLen := 0 }
        else s).chunks,
       (if True ∧ s.current ≠ [] then
          { s with
            chunks := s.chunks ++ [closeChunk s.lastHeader s.current],
            current := ([] : List (List Char)), currentLen := 0 }
        else s).current,
       (if True ∧ s.current ≠ [] then
          { s with
            chunks := s.chunks ++ [closeChunk s.lastHeader s.current],
            current := ([] : List (List Char)), currentLen := 0 }
        else s).currentLen,
       pyStrip raw⟩ (pyStrip raw) (by rw [hkey]; exact hlinelen)
    rw [hkey] at h2
    exact h2
  · simp only [hhead, if_false, Bool.false_eq_true, false_and, if_false]
    exact foldSent_lands chunkSize overlap false (tok (pyStrip raw)) s hsx
      hlen

theorem landed_foldLines (tok : List Char → List (List Char))
    (chunkSize overlap : Nat) (lines : List (List Char)) :
    ∀ (s : ChunkState) {frag : List Char}, landed s frag →
    landed (lines.foldl (stepLine tok chunkSize overlap) s) frag := by
  induction lines with
  | nil =>
    intro s frag h
    exact h
  | cons x xs ih =>
    intro s frag h
    exact ih _ (landed_stepLine _ _ _ _ _ h)

/-- C3, amended: every sentence of length at least 3 produced from a line
of the sanitized input occurs (stripped) inside some returned chunk.
Lines and sentences whose stripped form is shorter than 3 characters are
dropped by the accumulation loop, so the claim as stated (every non-blank
line reproduced) fails; the tokenizer is assumed to return fragments of
its input line, which holds for NLTK `sent_tokenize` and for the
single-line fallback. -/
theorem chunk_no_content_loss (tok : List Char → List (List Char))
    (chunkSize overlap : Nat) (text : List Char)
    (htok : ∀ l x, x ∈ tok l → x <:+: l) :
    ∀ raw ∈ splitOnNl (cleanPdfArtifacts text), ∀ sx ∈ tok (pyStrip raw),
    3 ≤ (pyStrip sx).length →
    ∃ c ∈ splitTextSemantic tok chunkSize overlap text,
      pyStrip sx <:+: c := by
  intro raw hraw sx hsx hlen
  rw [splitTextSemantic]
  by_cases h0 : cleanPdfArtifacts text = []
  · rw [h0] at hraw
    rw [show splitOnNl [] = [[]] from rfl, List.mem_singleton] at hraw
    subst hraw
    have h2 : sx <:+: pyStrip [] := htok _ _ hsx
    have h3 : sx = [] := by
      have h4 := h2.length_le
      rw [show pyStrip [] = [] from rfl] at h4
      simp at h4
      exact h4
    rw [h3] at hlen
    rw [show pyStrip [] = [] from rfl] at hlen
    simp at hlen
  · rw [if_neg h0]
    by_cases h1 : (cleanPdfArtifacts text).length ≤ chunkSize
    · rw [if_pos h1]
      refine ⟨cleanPdfArtifacts text, by simp, ?_⟩
      exact ((pyStrip_within sx).trans (htok _ _ hsx)).trans
        ((pyStrip_within raw).trans (mem_splitOnNl_within hraw))
    · rw [if_neg h1]
      have hland : landed
          ((splitOnNl (cleanPdfArtifacts text)).foldl
            (stepLine tok chunkSize overlap) ⟨[], [], 0, []⟩)
          (pyStrip sx) := by
        obtain ⟨l1, l2, hsplit⟩ := List.append_of_mem hraw
        rw [hsplit, List.foldl_append, List.foldl_cons]
        exact landed_foldLines _ _ _ l2 _
          (stepLine_lands tok chunkSize overlap _ raw sx htok hsx hlen)
      set sfin := (splitOnNl (cleanPdfArtifacts text)).foldl
        (stepLine tok chunkSize overlap) ⟨[], [], 0, []⟩ with hsfin
      dsimp only
      obtain ⟨c, hc, hw⟩ := hland
      rcases hc with hc | hc
      · have hc2 : c ∈ (if sfin.current ≠ [] then
            sfin.chunks ++ [closeChunk sfin.lastHeader sfin.current]
          else sfin.chunks) := by
          split
          · exact List.mem_append_left _ hc
          · exact hc
        rw [if_pos (by intro hcon; rw [hcon] at hc2; simp at hc2)]
        exact ⟨c, hc2, hw⟩
      · have hcur : sfin.current ≠ [] := by
          intro hcon
          rw [hcon] at hc
          simp at hc
        rw [if_pos hcur]
        have hclosemem : closeChunk sfin.lastHeader sfin.current ∈
            sfin.chunks ++ [closeChunk sfin.lastHeader sfin.current] :=
          List.mem_append_right _ (by simp)
        rw [if_pos (by intro hcon; rw [hcon] at hclosemem; simp at hclosemem)]
        refine ⟨closeChunk sfin.lastHeader sfin.current, hclosemem, ?_⟩
        exact hw.trans ((joinSp_within_of_mem hc).trans
          (joinSp_sfx_closeChunk _ _).isInfix)

theorem joinSp_app (cur : List (List Char)) (x : List Char) :
    joinSp (cur ++ [x]) =
      if cur = [] then x else joinSp cur ++ ' ' :: x := by
  induction cur with
  | nil => rfl
  | cons c cs ih =>
    cases cs with
    | nil => rfl
    | cons d ds =>
      have hstep : joinSp (c :: d :: (ds ++ [x])) =
          c ++ ' ' :: joinSp (d :: (ds ++ [x])) := rfl
      have hstep2 : joinSp (c :: d :: ds) = c ++ ' ' :: joinSp (d :: ds) :=
        rfl
      rw [show (c :: d :: ds) ++ [x] = c :: d :: (ds ++ [x]) from rfl,
        hstep]
      rw [show d :: (ds ++ [x]) = (d :: ds) ++ [x] from rfl, ih]
      rw [if_neg (by simp), if_neg (by simp), hstep2]
      simp

theorem chunkInv_ite (cond : Prop) [Decidable cond] {cs ov ML : Nat}
    {S1 S2 : ChunkState} (h1 : cond → chunkInv cs ov ML S1)
    (h2 : ¬ cond → chunkInv cs ov ML S2) :
    chunkInv cs ov ML (if cond then S1 else S2) := by
  by_cases h : cond
  · rw [if_pos h]
    exact h1 h
  · rw [if_neg h]
    exact h2 h

theorem closeBound (cs ov ML : Nat) (s : ChunkState)
    (hinv : chunkInv cs ov ML s) (hcur : s.current ≠ []) :
    closeChunk s.lastHeader s.current = joinSp s.current ∧
    (closeChunk s.lastHeader s.current).length ≤ chunkBound cs ov ML := by
  obtain ⟨i1, i2, i3, i5, i7, i0⟩ := hinv
  have heq : closeChunk s.lastHeader s.current = joinSp s.current := by
    refine closeChunk_eq _ _ ?_
    rcases i5 hcur with h | h
    · exact Or.inl h
    · exact Or.inr h
  refine ⟨heq, ?_⟩
  rw [heq, chunkBound]
  by_cases hbig : s.currentLen > cs
  · have := i3 hbig
    omega
  · have := i2 hcur
    omega

theorem chunkInv_append (cs ov ML : Nat) (s : ChunkState) (swc : List Char)
    (hinv : chunkInv cs ov ML s)
    (hswlen : swc.length ≤ 182 + ML)
    (hswhdr : s.lastHeader = [] ∨ s.lastHeader <:+: swc)
    (hno : ¬ (s.currentLen + swc.length + 1 > cs ∧ s.current ≠ [])) :
    chunkInv cs ov ML { s with
      current := s.current ++ [swc],
      currentLen := s.currentLen + swc.length + 1 } := by
  obtain ⟨i1, i2, i3, i5, i7, i0⟩ := hinv
  have hjoin := joinSp_app s.current swc
  refine ⟨by simp, ?_, ?_, ?_, i7, i0⟩
  · intro _
    dsimp only
    rw [hjoin]
    by_cases hc : s.current = []
    · rw [if_pos hc]
      omega
    · rw [if_neg hc]
      have := i2 hc
      simp only [List.length_append, List.length_cons]
      omega
  · intro hbig
    have hbig2 : s.currentLen + swc.length + 1 > cs := hbig
    dsimp only
    rw [hjoin]
    by_cases hc : s.current = []
    · rw [if_pos hc]
      omega
    · exfalso
      exact hno ⟨hbig2, hc⟩
  · intro _
    dsimp only
    rcases hswhdr with h | h
    · exact Or.inl h
    · exact Or.inr ⟨swc, by simp, h⟩

theorem chunkInv_close (cs ov ML : Nat) (s : ChunkState) (swc : List Char)
    (ob : List (List Char)) (hinv : chunkInv cs ov ML s)
    (hswlen : swc.length ≤ 182 + ML)
    (hswhdr : s.lastHeader = [] ∨ s.lastHeader <:+: swc)
    (hcur : s.current ≠ [])
    (hob : ob = [] ∨ ∃ t, ob = [t] ∧ t.length ≤ ov ∧
      t.length + 1 ≤ s.currentLen) :
    chunkInv cs ov ML { s with
      chunks := s.chunks ++ [closeChunk s.lastHeader s.current],
      current := ob ++ [swc],
      currentLen := s.currentLen + swc.length + 1 } := by
  have hclose := closeBound cs ov ML s hinv hcur
  obtain ⟨i1, i2, i3, i5, i7, i0⟩ := hinv
  have hjoin : (joinSp (ob ++ [swc])).length ≤ ov + 1 + swc.length ∧
      (ob = [] → (joinSp (ob ++ [swc])).length = swc.length) ∧
      (∀ t, ob = [t] →
        (joinSp (ob ++ [swc])).length = t.length + 1 + swc.length) := by
    rcases hob with hob | ⟨t, hob, ht1, ht2⟩
    · subst hob
      refine ⟨by simp [joinSp], fun _ => by simp [joinSp], ?_⟩
      intro t ht
      simp at ht
    · subst hob
      have : joinSp ([t] ++ [swc]) = t ++ ' ' :: swc := rfl
      refine ⟨?_, by simp, ?_⟩
      · rw [this]
        simp only [List.length_append, List.length_cons]
        omega
      · intro u hu
        simp only [List.cons.injEq] at hu
        rw [this, hu.1]
        simp only [List.length_append, List.length_cons]
        omega
  refine ⟨by simp, ?_, ?_, ?_, i7, ?_⟩
  · intro _
    dsimp only
    rcases hob with hob | ⟨t, hob, ht1, ht2⟩
    · rw [hob] at hjoin ⊢
      rw [hjoin.2.1 rfl]
      omega
    · rw [hob] at hjoin ⊢
      rw [hjoin.2.2 t rfl]
      omega
  · intro _
    dsimp only
    have h1 := hjoin.1
    omega
  · intro _
    dsimp only
    rcases hswhdr with h | h
    · exact Or.inl h
    · exact Or.inr ⟨swc, by simp, h⟩
  · intro c hc
    dsimp only at hc
    rcases List.mem_append.mp hc with hc | hc
    · exact i0 c hc
    · rw [List.mem_singleton] at hc
      subst hc
      exact hclose.2

theorem stepSent_inv (cs ov ML : Nat) (hd : Bool) (s : ChunkState)
    (sent0 : List Char) (hinv : chunkInv cs ov ML s)
    (hsent : (pyStrip sent0).length ≤ ML)
    (hhead : hd = true → pyStrip sent0 = s.lastHeader) :
    chunkInv cs ov ML (stepSent cs ov hd s sent0) := by
  obtain ⟨i1, i2, i3, i5, i7, i0⟩ := hinv
  have hswlen : (if ¬hd = true ∧ s.lastHeader ≠ [] then
      s.lastHeader ++ ':' :: ' ' :: pyStrip sent0
    else pyStrip sent0).length ≤ 182 + ML := by
    by_cases ha : ¬hd = true ∧ s.lastHeader ≠ []
    · rw [if_pos ha]
      have h7 : s.lastHeader.length ≤ 180 := by
        rcases i7 with h | h
        · exact absurd h ha.2
        · exact h
      simp only [List.length_append, List.length_cons]
      omega
    · rw [if_neg ha]
      omega
  have hswhdr : s.lastHeader = [] ∨ s.lastHeader <:+:
      (if ¬hd = true ∧ s.lastHeader ≠ [] then
        s.lastHeader ++ ':' :: ' ' :: pyStrip sent0
      else pyStrip sent0) := by
    by_cases ha : ¬hd = true ∧ s.lastHeader ≠ []
    · rw [if_pos ha]
      exact Or.inr (List.IsPrefix.isInfix (List.prefix_append _ _))
    · rw [if_neg ha]
      rcases not_and_or.mp ha with ha2 | ha2
      · have hd2 : hd = true := by
          by_contra hh
          exact ha2 (by simpa using hh)
        rw [hhead hd2]
        exact Or.inr (List.infix_refl _)
      · exact Or.inl (by simpa using ha2)
  rw [stepSent]
  refine chunkInv_ite _ (fun _ => ⟨i1, i2, i3, i5, i7, i0⟩) (fun _ => ?_)
  refine chunkInv_ite _ (fun hsz => ?_) (fun hnsz => ?_)
  · refine chunkInv_close cs ov ML s _ _ ⟨i1, i2, i3, i5, i7, i0⟩
      hswlen hswhdr hsz.2 ?_
    by_cases hob : ov > 0 ∧ ¬hd = true
    · rw [if_pos hob]
      refine Or.inr ⟨_, rfl, ?_, ?_⟩
      · exact (tailTake_le _ _).1
      · have hc1 := (closeBound cs ov ML s ⟨i1, i2, i3, i5, i7, i0⟩
          hsz.2).1
        rw [hc1]
        have hc2 := (tailTake_le ov (joinSp s.current)).2
        have := i2 hsz.2
        omega
    · rw [if_neg hob]
      exact Or.inl rfl
  · exact chunkInv_append cs ov ML s _ ⟨i1, i2, i3, i5, i7, i0⟩
      hswlen hswhdr hnsz

theorem stepSent_lastHeader (cs ov : Nat) (hd : Bool) (s : ChunkState)
    (sent0 : List Char) :
    (stepSent cs ov hd s sent0).lastHeader = s.lastHeader := by
  rw [stepSent]
  by_cases h1 : pyStrip sent0 = [] ∨ (pyStrip sent0).length < 3
  · rw [if_pos h1]
  · rw [if_neg h1]
    by_cases h2 : s.currentLen + (if ¬hd = true ∧ s.lastHeader ≠ [] then
        s.lastHeader ++ ':' :: ' ' :: pyStrip sent0
      else pyStrip sent0).length + 1 > cs ∧ s.current ≠ []
    · rw [if_pos h2]
    · rw [if_neg h2]

theorem foldSent_inv (cs ov ML : Nat) (hd : Bool)
    (sents : List (List Char)) :
    ∀ s : ChunkState, chunkInv cs ov ML s →
    (∀ x ∈ sents, (pyStrip x).length ≤ ML ∧
      (hd = true → pyStrip x = s.lastHeader)) →
    chunkInv cs ov ML (sents.foldl (stepSent cs ov hd) s) := by
  induction sents with
  | nil =>
    intro s hinv _
    exact hinv
  | cons x xs ih =>
    intro s hinv hfacts
    rw [List.foldl_cons]
    refine ih _ (stepSent_inv cs ov ML hd s x hinv
      (hfacts x (by simp)).1 (hfacts x (by simp)).2) ?_
    intro y hy
    refine ⟨(hfacts y (by simp [hy])).1, ?_⟩
    intro hd2
    rw [stepSent_lastHeader]
    exact (hfacts y (by simp [hy])).2 hd2

theorem stepLine_inv (tok : List Char → List (List Char))
    (cs ov ML : Nat) (s : ChunkState) (raw : List Char)
    (hinv : chunkInv cs ov ML s)
    (htok : ∀ l x, x ∈ tok l → x <:+: l)
    (hraw : (pyStrip raw).length ≤ ML) :
    chunkInv cs ov ML (stepLine tok cs ov s raw) := by
  obtain ⟨i1, i2, i3, i5, i7, i0⟩ := hinv
  simp only [stepLine]
  refine chunkInv_ite _ (fun _ => ⟨i1, i2, i3, i5, i7, i0⟩) (fun hne => ?_)
  by_cases hhead : isHeading (pyStrip raw) = true
  · simp only [hhead, if_true]
    refine foldSent_inv cs ov ML true [pyStrip raw] _ ?_ ?_
    · by_cases hcur : s.current ≠ []
      · rw [if_pos ⟨trivial, hcur⟩]
        refine ⟨fun _ => rfl, fun h => absurd rfl h, ?_,
          fun h => absurd rfl h, Or.inr (isHeading_len hhead), ?_⟩
        · intro hbig
          dsimp only at hbig
          omega
        · intro c hc
          dsimp only at hc
          rcases List.mem_append.mp hc with hc | hc
          · exact i0 c hc
          · rw [List.mem_singleton] at hc
            subst hc
            exact (closeBound cs ov ML s ⟨i1, i2, i3, i5, i7, i0⟩ hcur).2
      · rw [if_neg (by simpa using hcur)]
        have hcur2 : s.current = [] := by
          by_contra h
          exact hcur h
        refine ⟨fun _ => i1 hcur2, fun h => absurd hcur2 h, ?_,
          fun h => absurd hcur2 h, Or.inr (isHeading_len hhead), i0⟩
        intro hbig
        dsimp only at hbig
        rw [i1 hcur2] at hbig
        omega
    · intro x hx
      rw [List.mem_singleton] at hx
      subst hx
      refine ⟨by rw [pyStrip_idem]; exact hraw, fun _ => ?_⟩
      rw [pyStrip_idem]
  · simp only [hhead, if_false, Bool.false_eq_true, false_and, if_false]
    refine foldSent_inv cs ov ML false (tok (pyStrip raw)) s
      ⟨i1, i2, i3, i5, i7, i0⟩ ?_
    intro x hx
    refine ⟨?_, fun h => absurd h (by simp)⟩
    have h1 := (htok _ _ hx).length_le
    have h2 := pyStrip_length_le x
    omega

theorem foldLines_inv (tok : List Char → List (List Char))
    (cs ov ML : Nat) (lines : List (List Char)) :
    ∀ s : ChunkState, chunkInv cs ov ML s →
    (∀ raw ∈ lines, (pyStrip raw).length ≤ ML) →
    (∀ l x, x ∈ tok l → x <:+: l) →
    chunkInv cs ov ML (lines.foldl (stepLine tok cs ov) s) := by
  induction lines with
  | nil =>
    intro s hinv _ _
    exact hinv
  | cons r rs ih =>
    intro s hinv hr htok
    rw [List.foldl_cons]
    exact ih _ (stepLine_inv tok cs ov ML s r hinv htok (hr r (by simp)))
      (fun raw hraw => hr raw (by simp [hraw])) htok

/-- C2, amended: every chunk of `split_text_semantic` has length at most
`max chunk_size (overlap + 183 + L)` — where `L` is the longest stripped
line of the sanitized text, `183` accounts for the header-context prefix
(headers are capped at 180 characters by `is_heading`, plus `": "` and
the joining space) and `overlap + 1` for a carried overlap tail — unless
it is the sanitized text itself returned whole.  The bound `chunk_size`
alone fails because the loop's tracked length goes stale after a close. -/
theorem chunk_size_bound (tok : List Char → List (List Char))
    (chunkSize overlap : Nat) (text : List Char)
    (htok : ∀ l x, x ∈ tok l → x <:+: l) :
    ∀ c ∈ splitTextSemantic tok chunkSize overlap text,
      c.length ≤ chunkBound chunkSize overlap
        (maxLineLen (cleanPdfArtifacts text)) ∨
      c = cleanPdfArtifacts text := by
  intro c hc
  rw [splitTextSemantic] at hc
  by_cases h0 : cleanPdfArtifacts text = []
  · rw [if_pos h0] at hc
    simp at hc
  · rw [if_neg h0] at hc
    by_cases h1 : (cleanPdfArtifacts text).length ≤ chunkSize
    · rw [if_pos h1] at hc
      rw [List.mem_singleton] at hc
      exact Or.inr hc
    · rw [if_neg h1] at hc
      have hinit : chunkInv chunkSize overlap
          (maxLineLen (cleanPdfArtifacts text)) ⟨[], [], 0, []⟩ := by
        refine ⟨fun _ => rfl, fun h => absurd rfl h, ?_,
          fun h => absurd rfl h, Or.inl rfl, by intro c hc2; simp at hc2⟩
        intro hbig
        dsimp only at hbig
        omega
      have hfin := foldLines_inv tok chunkSize overlap
        (maxLineLen (cleanPdfArtifacts text))
        (splitOnNl (cleanPdfArtifacts text)) ⟨[], [], 0, []⟩ hinit
        (fun raw hraw => maxLineLen_mem hraw) htok
      set sfin := (splitOnNl (cleanPdfArtifacts text)).foldl
        (stepLine tok chunkSize overlap) ⟨[], [], 0, []⟩ with hsfin
      dsimp only at hc
      obtain ⟨i1, i2, i3, i5, i7, i0⟩ := hfin
      by_cases h2 : (if sfin.current ≠ [] then
          sfin.chunks ++ [closeChunk sfin.lastHeader sfin.current]
        else sfin.chunks) ≠ []
      · rw [if_pos h2] at hc
        by_cases hcur : sfin.current ≠ []
        · rw [if_pos hcur] at hc
          rcases List.mem_append.mp hc with hc | hc
          · exact Or.inl (i0 c hc)
          · rw [List.mem_singleton] at hc
            subst hc
            exact Or.inl ((closeBound _ _ _ sfin
              ⟨i1, i2, i3, i5, i7, i0⟩ hcur).2)
        · rw [if_neg hcur] at hc
          exact Or.inl (i0 c hc)
      · rw [if_neg h2] at hc
        rw [List.mem_singleton] at hc
        exact Or.inr hc

/-- C2, counterexample to the claim as stated: with `chunk_size = 10`,
`overlap = 8` and three 8-character lines (no line, hence no sentence,
exceeds `chunk_size`), the overlap tail carried into a fresh chunk makes
the chunk `"abcdefgh qrstuvwx"` of length 17 > 10, and it is not a single
over-long sentence. -/
theorem chunk_size_bound_counterexample :
    (∃ c ∈ splitTextSemantic (fun l => [l]) 10 8
      ("abcdefgh\nqrstuvwx\nnopqrstu").toList, 10 < c.length) ∧
    (∀ l ∈ splitOnNl (cleanPdfArtifacts
      ("abcdefgh\nqrstuvwx\nnopqrstu").toList),
      (pyStrip l).length ≤ 10) := by
  decide

/-- Witness for the amended C2 at a concrete input. -/
theorem chunk_size_bound_witness :
    ("abcdefgh qrstuvwx").toList.length ≤ chunkBound 10 8
        (maxLineLen (cleanPdfArtifacts
          ("abcdefgh\nqrstuvwx\nnopqrstu").toList)) ∨
      ("abcdefgh qrstuvwx").toList =
        cleanPdfArtifacts ("abcdefgh\nqrstuvwx\nnopqrstu").toList :=
  chunk_size_bound (fun l => [l]) 10 8
    ("abcdefgh\nqrstuvwx\nnopqrstu").toList
    (fun l x hx => by
      rw [List.mem_singleton] at hx
      subst hx
      exact List.infix_refl _)
    ("abcdefgh qrstuvwx").toList (by decide)

/-- C3, counterexample to the claim as stated: the non-blank line `"xy"`
of the sanitized input is shorter than 3 characters, so the accumulation
loop drops it and its content occurs in no returned chunk. -/
theorem chunk_content_loss_counterexample :
    (∃ raw ∈ splitOnNl (cleanPdfArtifacts ("abcdef\nxy\nghijkl").toList),
      pyStrip raw = ['x', 'y']) ∧
    (∀ c ∈ splitTextSemantic (fun l => [l]) 5 0
      ("abcdef\nxy\nghijkl").toList, ¬ (['x', 'y'] <:+: c)) := by
  decide

/-- Witness for the amended C3 at a concrete input. -/
theorem chunk_no_content_loss_witness :
    ∃ c ∈ splitTextSemantic (fun l => [l]) 5 0
      ("abcdef\nxy\nghijkl").toList,
      pyStrip ("abcdef").toList <:+: c :=
  chunk_no_content_loss (fun l => [l]) 5 0 ("abcdef\nxy\nghijkl").toList
    (fun l x hx => by
      rw [List.mem_singleton] at hx
      subst hx
      exact List.infix_refl _)
    ("abcdef").toList (by decide) ("abcdef").toList (by decide) (by decide)
